import Mathlib

/-!
Verification of the naci application runtime against its specification.

Each component referenced by the claims is shallowly embedded: the per-app
bounded log console (src/core/console.ts), the log formatter, the trie router
(src/http/router.ts), the buffered byte pipe (src/http/pipe.ts), the chunked
HTTP body codec and response writer (src/http/client.ts), the App lifecycle
engine (core/app.ts) and the POST control API handler (route/api.ts).
Byte streams are `List Nat`, JavaScript objects become association lists, and
asynchronous promises become optional (settle-time, outcome) pairs.
-/

namespace Naci

/-! ## Log console queue (src/core/console.ts, lines 149-185)

The console keeps a FIFO `$logQueue` of at most `$maxLogQueueLength = 20`
messages.  The printer callback evicts (`shift`) the oldest message as an
`overflow` event when the queue is full, pushes the new message and emits
`log`.  `clear()` emits a `clear` event carrying `$logQueue.slice()` (a
snapshot) and does not modify the queue.  Messages are abstracted by a type
`α`; the queue logic never inspects them. -/

inductive ConsoleEvent (α : Type) where
  | log (m : α)
  | overflow (m : α)
  | clear (snapshot : List α)
deriving DecidableEq

/-- `$maxLogQueueLength` (console.ts line 151). -/
def maxLogQueueLength : Nat := 20

/-- One invocation of the printer callback (console.ts lines 157-170): if the
queue has reached `maxLogQueueLength`, `shift` the oldest message and emit it
as `overflow`; then push the new message and emit `log`.  Returns the new
queue and the events emitted, in emission order. -/
def printerStep {α : Type} (q : List α) (m : α) : List α × List (ConsoleEvent α) :=
  if maxLogQueueLength ≤ q.length then
    (q.drop 1 ++ [m], (q.head?.elim [] fun old => [ConsoleEvent.overflow old]) ++ [ConsoleEvent.log m])
  else (q ++ [m], [ConsoleEvent.log m])

/-- Run the printer over a sequence of pushed messages, concatenating the
emitted events in order. -/
def consoleRun {α : Type} (q : List α) : List α → List α × List (ConsoleEvent α)
  | [] => (q, [])
  | m :: rest =>
    let s := printerStep q m
    let r := consoleRun s.1 rest
    (r.1, s.2 ++ r.2)

/-- `clear()` (console.ts lines 174-176): emit `clear` with a snapshot of the
queue; the queue itself is left untouched. -/
def consoleClear {α : Type} (q : List α) : List α × List (ConsoleEvent α) :=
  (q, [ConsoleEvent.clear q])

/-- The console operations that touch the queue: the printer push and
`clear()`. -/
inductive ConsoleOp (α : Type) where
  | push (m : α)
  | clear
deriving DecidableEq

def consoleStep {α : Type} (q : List α) : ConsoleOp α → List α × List (ConsoleEvent α)
  | ConsoleOp.push m => printerStep q m
  | ConsoleOp.clear => consoleClear q

def consoleOps {α : Type} (q : List α) : List (ConsoleOp α) → List α × List (ConsoleEvent α)
  | [] => (q, [])
  | op :: rest =>
    let s := consoleStep q op
    let r := consoleOps s.1 rest
    (r.1, s.2 ++ r.2)

/-- The messages carried by `overflow` events, in emission order. -/
def overflowMsgs {α : Type} : List (ConsoleEvent α) → List α
  | [] => []
  | ConsoleEvent.overflow m :: es => m :: overflowMsgs es
  | _ :: es => overflowMsgs es

/-- Number of `overflow` events in a trace. -/
def overflowCount {α : Type} (es : List (ConsoleEvent α)) : Nat :=
  (overflowMsgs es).length

/-- Number of `push` operations in an operation sequence. -/
def pushCount {α : Type} : List (ConsoleOp α) → Nat
  | [] => 0
  | ConsoleOp.push _ :: rest => pushCount rest + 1
  | ConsoleOp.clear :: rest => pushCount rest

/-- Specification-side events of the i-th push (0-based) of `ms` starting
from queue `init`: `overflow` of element `init.length + i - 20` of
`init ++ ms` when `20 ≤ init.length + i`, followed by `log` of the pushed
message.  In particular the `overflow` of an evicted message immediately
precedes the `log` of the message whose push displaced it. -/
def traceBlock {α : Type} (init ms : List α) (i : Nat) : List (ConsoleEvent α) :=
  (if maxLogQueueLength ≤ init.length + i then
    ((init ++ ms).get? (init.length + i - maxLogQueueLength)).elim []
      fun old => [ConsoleEvent.overflow old]
   else []) ++ ((ms.get? i).elim [] fun m => [ConsoleEvent.log m])

/-- Specification-side event trace of pushing `ms` from queue `init`: the
per-push blocks in push order. -/
def expectedTrace {α : Type} (init ms : List α) : List (ConsoleEvent α) :=
  (List.range ms.length).flatMap (traceBlock init ms)

/-! ## Log formatter (src/core/console.ts, lines 25-147)

`Console.format` processes printf-style specifiers in the first argument.
The embedding covers string-typed arguments (the source accepts any
JavaScript value; for strings, `String(arg)` is the identity).  `parseFloat`
is modelled for plain decimal literals (exponents and double rounding are
outside the fragment the claims exercise). -/

/-- `escapeHtml` on one character (console.ts lines 25-40).  The characters
escaped are the six in the regex, written via their code points. -/
def escapeChar (c : Char) : String :=
  if c = Char.ofNat 38 then "&amp;"
  else if c = Char.ofNat 60 then "&lt;"
  else if c = Char.ofNat 62 then "&gt;"
  else if c = Char.ofNat 34 then "&quot;"
  else if c = Char.ofNat 39 then "&#39;"
  else if c = Char.ofNat 96 then "&#96;"
  else String.singleton c

def escapeHtml (s : String) : String := String.join (s.toList.map escapeChar)

def isWsChar (c : Char) : Bool :=
  c = ' ' || c = '\t' || c = '\n' || c = '\r' || c = Char.ofNat 11 || c = Char.ofNat 12

/-- Longest leading run of decimal digits. -/
def digitsHead : List Char → List Char
  | [] => []
  | c :: rest => if c.isDigit then c :: digitsHead rest else []

def digitsToNat (l : List Char) : Nat :=
  l.foldl (fun a c => 10 * a + (c.toNat - 48)) 0

/-- `String(parseInt(s, 10))` for a string argument: skip leading whitespace,
optional sign, longest digit run; `"NaN"` when no digit follows. -/
def parseIntModel (s : String) : String :=
  let t := s.toList.dropWhile isWsChar
  let signed : Bool × List Char :=
    match t with
    | c :: rest => if c = '-' then (true, rest) else if c = '+' then (false, rest) else (false, t)
    | [] => (false, [])
  let ds := digitsHead signed.2
  if ds = [] then "NaN"
  else
    let n := digitsToNat ds
    if n = 0 then "0" else (if signed.1 then "-" else "") ++ toString n

/-- `String(parseFloat(s))` for a plain decimal literal (sign, digits,
optional fraction); `"NaN"` otherwise.  Trailing fraction zeros drop, as in
JavaScript number printing. -/
def parseFloatModel (s : String) : String :=
  let t := s.toList.dropWhile isWsChar
  let signed : Bool × List Char :=
    match t with
    | c :: rest => if c = '-' then (true, rest) else if c = '+' then (false, rest) else (false, t)
    | [] => (false, [])
  let intPart := digitsHead signed.2
  let rest2 := signed.2.drop intPart.length
  let fracPart : List Char :=
    match rest2 with
    | c :: r => if c = '.' then digitsHead r else []
    | [] => []
  if intPart = [] && fracPart = [] then "NaN"
  else
    let fp := (fracPart.reverse.dropWhile (fun c => c = '0')).reverse
    let ip := digitsToNat intPart
    if fp = [] then (if ip = 0 then "0" else (if signed.1 then "-" else "") ++ toString ip)
    else (if signed.1 then "-" else "") ++ toString ip ++ "." ++ String.mk fp

/-- `JSON.stringify` of a string value (the `%o`/`%O` branch applied to a
string argument): quote and escape. -/
def jsonStringifyStr (s : String) : String :=
  "\"" ++ String.join (s.toList.map fun c =>
    if c = Char.ofNat 34 then "\\\""
    else if c = '\\' then "\\\\"
    else if c = '\n' then "\\n"
    else if c = '\r' then "\\r"
    else if c = '\t' then "\\t"
    else if c = Char.ofNat 8 then "\\b"
    else if c = Char.ofNat 12 then "\\f"
    else String.singleton c) ++ "\""

/-- The specifier loop of `Console.format` (console.ts lines 52-96) over the
characters of the format string, tracking `argIndex`.  When the characters
are exhausted, the remaining arguments are appended space-separated (lines
93-96).  Note the `%c` branch: the argument was already fetched with
`args[argIndex++]`, and the branch increments `argIndex` once more. -/
def formatLoop (args : List String) : List Char → Nat → String
  | [], argIndex => String.join ((args.drop argIndex).map fun a => " " ++ escapeHtml a)
  | '%' :: spec :: rest, argIndex =>
    if argIndex < args.length then
      let arg := args.getD argIndex ""
      if spec = 's' then escapeHtml arg ++ formatLoop args rest (argIndex + 1)
      else if spec = 'd' ∨ spec = 'i' then
        escapeHtml (parseIntModel arg) ++ formatLoop args rest (argIndex + 1)
      else if spec = 'f' then escapeHtml (parseFloatModel arg) ++ formatLoop args rest (argIndex + 1)
      else if spec = 'o' ∨ spec = 'O' then
        "<pre>" ++ escapeHtml (jsonStringifyStr arg) ++ "</pre>" ++ formatLoop args rest (argIndex + 1)
      else if spec = 'c' then formatLoop args rest (argIndex + 2)
      else "%" ++ String.singleton spec ++ formatLoop args rest (argIndex + 1)
    else "%" ++ String.singleton spec ++ formatLoop args rest argIndex
  | c :: rest, argIndex => escapeChar c ++ formatLoop args rest argIndex

/-- Final `\n` → `<br>` rewriting (console.ts line 144). -/
def nlToBr (s : String) : String :=
  String.join (s.toList.map fun c => if c = '\n' then "<br>" else String.singleton c)

/-- `Console.format` (console.ts lines 42-147) for string arguments: the
first argument is the format string, processed by `formatLoop` starting at
`argIndex = 1`. -/
def format (args : List String) : String :=
  match args with
  | [] => nlToBr ""
  | fmt :: _ => nlToBr (formatLoop args fmt.toList 1)

/-! ## Router trie (src/http/router.ts, lines 63-203)

`RouteNode` holds an optional handler (modelled as a `Nat` identifier), a map
of static children (a JavaScript `Map`, here an association list keeping
insertion order with unique keys), an optional named parameter child, and an
optional wildcard child.  Route parameters (`RouteParams`, a JavaScript
object) become association lists with unique keys: `paramsSet` overwrites in
place or appends, `paramsDelete` removes the key. -/

inductive RouteNode where
  | mk (handler : Option Nat) (children : List (String × RouteNode))
       (paramchild : Option (String × RouteNode)) (wildcardchild : Option RouteNode)

def RouteNode.handler : RouteNode → Option Nat
  | RouteNode.mk h _ _ _ => h

def RouteNode.children : RouteNode → List (String × RouteNode)
  | RouteNode.mk _ c _ _ => c

def RouteNode.paramchild : RouteNode → Option (String × RouteNode)
  | RouteNode.mk _ _ p _ => p

def RouteNode.wildcardchild : RouteNode → Option RouteNode
  | RouteNode.mk _ _ _ w => w

/-- `createnode()` (router.ts lines 109-116). -/
def createnode : RouteNode := RouteNode.mk none [] none none

/-- `Map.get` on the static-children map. -/
def lookupChild : List (String × RouteNode) → String → Option RouteNode
  | [], _ => none
  | (k, n) :: rest, s => if k = s then some n else lookupChild rest s

/-- `Map.set` on the static-children map: replace in place, else append. -/
def setChild : List (String × RouteNode) → String → RouteNode → List (String × RouteNode)
  | [], s, n => [(s, n)]
  | (k, m) :: rest, s, n => if k = s then (s, n) :: rest else (k, m) :: setChild rest s n

/-- Route parameter bindings (`RouteParams`): a JavaScript object. -/
abbrev Params := List (String × String)

/-- `params[name] = seg`: overwrite an existing key in place, else append. -/
def paramsSet : Params → String → String → Params
  | [], name, v => [(name, v)]
  | (k, w) :: rest, name, v =>
    if k = name then (name, v) :: rest else (k, w) :: paramsSet rest name v

/-- `delete params[name]`: remove the key. -/
def paramsDelete : Params → String → Params
  | [], _ => []
  | (k, w) :: rest, name => if k = name then paramsDelete rest name else (k, w) :: paramsDelete rest name

def paramsKeys (p : Params) : List String := p.map Prod.fst

/-- `path.split('/')` over the characters of the path (`acc` holds the
current segment reversed). -/
def splitSlash : List Char → List Char → List String
  | [], acc => [String.mk acc.reverse]
  | c :: rest, acc =>
    if c = '/' then String.mk acc.reverse :: splitSlash rest []
    else splitSlash rest (c :: acc)

/-- `parsepath` (router.ts lines 121-123): split on `/` and drop empty
segments. -/
def parsepath (path : String) : List String :=
  (splitSlash path.toList []).filter fun s => s.length > 0

/-- `addroute`'s per-segment descent (router.ts lines 128-158).  A `:name`
segment descends into the parameter child (created on demand, keeping the
first name); `*` descends into the wildcard child and stops (`break`: the
wildcard must be last); anything else descends into the static child.  The
handler is installed on the final node. -/
def addrouteAux : RouteNode → List String → Nat → RouteNode
  | RouteNode.mk _ ch pc wc, [], h => RouteNode.mk (some h) ch pc wc
  | RouteNode.mk h0 ch pc wc, seg :: rest, h =>
    if seg.toList.head? = some ':' then
      match pc with
      | some (name, child) => RouteNode.mk h0 ch (some (name, addrouteAux child rest h)) wc
      | none =>
        RouteNode.mk h0 ch
          (some (String.mk seg.toList.tail, addrouteAux createnode rest h)) wc
    else if seg = "*" then
      match wc with
      | some (RouteNode.mk _ wch wpc wwc) => RouteNode.mk h0 ch pc (some (RouteNode.mk (some h) wch wpc wwc))
      | none => RouteNode.mk h0 ch pc (some (RouteNode.mk (some h) [] none none))
    else
      let child := (lookupChild ch seg).getD createnode
      RouteNode.mk h0 (setChild ch seg (addrouteAux child rest h)) pc wc

/-- Steps 2 and 3 of the matcher at one node (router.ts lines 185-198): try
the parameter child — binding `params[name] = seg`, recursing via
`matchRest`, and deleting the binding again when the descent fails — then
fall back to the wildcard child's handler.  `matchRest` is the recursive
matcher for the remaining segments. -/
def matchAfterParam (matchRest : RouteNode → Params → Option Nat × Params)
    (node : RouteNode) (seg : String) (p : Params) : Option Nat × Params :=
  match node.paramchild with
  | some (name, child) =>
    let p1 := paramsSet p name seg
    let r := matchRest child p1
    if r.1.isSome then r
    else
      let p3 := paramsDelete r.2 name
      (match node.wildcardchild with
       | some w => w.handler
       | none => none, p3)
  | none =>
    (match node.wildcardchild with
     | some w => w.handler
     | none => none, p)

/-- The recursive `match` closure of `matchroute` (router.ts lines 170-199),
with the shared mutable `params` object made explicit: every branch returns
the (possibly mutated) params alongside the result.  At each node the static
child is tried first (its failure leaves whatever mutations its descent
performed), then the parameter child, then the wildcard (via
`matchAfterParam`). -/
def matchAux : RouteNode → List String → Params → Option Nat × Params
  | node, [], params => (node.handler, params)
  | node, seg :: rest, params =>
    match lookupChild node.children seg with
    | some child =>
      let r := matchAux child rest params
      if r.1.isSome then r else matchAfterParam (fun c q => matchAux c rest q) node seg r.2
    | none => matchAfterParam (fun c q => matchAux c rest q) node seg params

/-- `matchroute` on one method tree (router.ts lines 163-203): run the
matcher from the root with an empty params object; `null` unless a handler
was found. -/
def matchrouteNode (root : RouteNode) (segments : List String) : Option (Nat × Params) :=
  let r := matchAux root segments []
  match r.1 with
  | some h => some (h, r.2)
  | none => none

/-- The method-keyed route table (`$routes`, router.ts lines 93-104). -/
abbrev RouterTable := List (String × RouteNode)

def emptyRouter : RouterTable :=
  ["GET", "POST", "PUT", "DELETE", "PATCH", "HEAD", "OPTIONS", "TRACE", "CONNECT"].map
    fun m => (m, createnode)

def routerLookup : RouterTable → String → Option RouteNode
  | [], _ => none
  | (k, n) :: rest, s => if k = s then some n else routerLookup rest s

def routerSet : RouterTable → String → RouteNode → RouterTable
  | [], s, n => [(s, n)]
  | (k, m) :: rest, s, n => if k = s then (s, n) :: rest else (k, m) :: routerSet rest s n

/-- `addroute(method, path, handler)` (router.ts lines 128-158). -/
def addroute (t : RouterTable) (method : String) (path : String) (h : Nat) : RouterTable :=
  match routerLookup t method with
  | some root => routerSet t method (addrouteAux root (parsepath path) h)
  | none => t

/-- `matchroute(method, path)` (router.ts lines 163-203). -/
def matchroute (t : RouterTable) (method : String) (path : String) : Option (Nat × Params) :=
  match routerLookup t method with
  | some root => matchrouteNode root (parsepath path)
  | none => none

/-- Specification-side description of a successful route match: the descent
from a node through static, parameter and wildcard edges to a handler,
collecting exactly the parameter bindings declared along the way, each bound
to the path segment it consumed. -/
inductive MatchedPath : RouteNode → List String → Nat → Params → Prop where
  | done {node : RouteNode} {h : Nat} :
      node.handler = some h → MatchedPath node [] h []
  | static {node child : RouteNode} {seg : String} {rest : List String} {h : Nat} {bs : Params} :
      lookupChild node.children seg = some child → MatchedPath child rest h bs →
      MatchedPath node (seg :: rest) h bs
  | param {node child : RouteNode} {name seg : String} {rest : List String} {h : Nat} {bs : Params} :
      node.paramchild = some (name, child) → MatchedPath child rest h bs →
      MatchedPath node (seg :: rest) h ((name, seg) :: bs)
  | wildcard {node w : RouteNode} {seg : String} {rest : List String} {h : Nat} :
      node.wildcardchild = some w → w.handler = some h →
      MatchedPath node (seg :: rest) h []

/-- `name` is declared as a route parameter somewhere in the subtree. -/
inductive DeclaredIn : String → RouteNode → Prop where
  | here {node : RouteNode} {name : String} {child : RouteNode} :
      node.paramchild = some (name, child) → DeclaredIn name node
  | inParam {node : RouteNode} {name n : String} {child : RouteNode} :
      node.paramchild = some (n, child) → DeclaredIn name child → DeclaredIn name node
  | inStatic {node : RouteNode} {name s : String} {child : RouteNode} :
      (s, child) ∈ node.children → DeclaredIn name child → DeclaredIn name node
  | inWildcard {node : RouteNode} {name : String} {child : RouteNode} :
      node.wildcardchild = some child → DeclaredIn name child → DeclaredIn name node

/-- No route parameter name is shadowed deeper in its own subtree: whenever a
node declares `:name`, `name` is not declared again below that parameter
child; and the property holds recursively everywhere. -/
inductive NoShadow : RouteNode → Prop where
  | mk {node : RouteNode} :
      (∀ name child, node.paramchild = some (name, child) → ¬ DeclaredIn name child) →
      (∀ name child, node.paramchild = some (name, child) → NoShadow child) →
      (∀ s child, (s, child) ∈ node.children → NoShadow child) →
      (∀ child, node.wildcardchild = some child → NoShadow child) →
      NoShadow node

/-- A route table registering `GET /:x/:x/end` (handler 1) and `GET /:x/*`
(handler 2): the parameter name `x` is shadowed at two depths. -/
def cexRouter : RouterTable :=
  addroute (addroute emptyRouter "GET" "/:x/:x/end" 1) "GET" "/:x/*" 2

/-- The GET tree of `cexRouter`. -/
def cexRoot : RouteNode := (routerLookup cexRouter "GET").getD createnode

/-- A small shadow-free trie: `GET /user/:id` with handler 7. -/
def wLeaf : RouteNode := RouteNode.mk (some 7) [] none none

def wMid : RouteNode := RouteNode.mk none [] (some ("id", wLeaf)) none

def wRoot : RouteNode := RouteNode.mk none [("user", wMid)] none none

def wTable : RouterTable := [("GET", wRoot)]

/-! ## Byte pipe `readline` (src/http/pipe.ts, lines 121-199)

Byte streams are `List Nat` (byte values).  The connection is modelled by the
sequence of buffers that successive `conn.read` calls deliver (`fills`); a
final EOF follows the last one.  `readlineAux` carries the saved chunks
(`acc`, the concatenation of the `chunks` array), the current unread buffer
window, and the remaining fills. -/

abbrev Bytes := List Nat

/-- The newline scan of `readline` (pipe.ts lines 131-146): first index of a
`\n` (length-1 terminator) or of a `\r` immediately followed by `\n` inside
the buffer (length-2 terminator).  A `\r` that is the last byte of the buffer
is not recognised (`i + 1 < bufferEnd` fails). -/
def findNewline : Bytes → Option (Nat × Nat)
  | [] => none
  | b :: rest =>
    if b = 10 then some (0, 1)
    else if b = 13 ∧ rest.head? = some 10 then some (0, 2)
    else (findNewline rest).map fun il => (il.1 + 1, il.2)

/-- `readline(maxLength)` (pipe.ts lines 125-199).  Returns
`(line?, buffer', fills')`: the line (`none` models the `null` return at EOF
with nothing pending) and the remaining pipe state.  Errors model the thrown
`Line exceeds maximum length` exception.  Per the source: scan the buffer; on
a hit return saved chunks plus the prefix and consume through the
terminator; otherwise save the whole buffer, throw if the saved total has
reached `maxLength`, then fill (EOF returns the remainder as the final
line). -/
def readlineAux (maxLength : Nat) : Bytes → Bytes → List Bytes →
    Except String (Option Bytes × Bytes × List Bytes)
  | acc, buf, [] =>
    match findNewline buf with
    | some il => Except.ok (some (acc ++ buf.take il.1), buf.drop (il.1 + il.2), [])
    | none =>
      let acc2 := acc ++ buf
      if maxLength ≤ acc2.length then Except.error "Line exceeds maximum length"
      else if acc2.length = 0 then Except.ok (none, [], []) else Except.ok (some acc2, [], [])
  | acc, buf, f :: rest =>
    match findNewline buf with
    | some il => Except.ok (some (acc ++ buf.take il.1), buf.drop (il.1 + il.2), f :: rest)
    | none =>
      let acc2 := acc ++ buf
      if maxLength ≤ acc2.length then Except.error "Line exceeds maximum length"
      else readlineAux maxLength acc2 f rest

/-- `readline` entered with buffered bytes `buf` and pending connection
reads `fills`. -/
def readline (buf : Bytes) (fills : List Bytes) (maxLength : Nat) :
    Except String (Option Bytes × Bytes × List Bytes) :=
  readlineAux maxLength [] buf fills

/-- No `\r\n` terminator straddles a boundary between consecutive buffer
fills: the current buffer never ends in `\r` while the remaining stream
starts with `\n`. -/
def NoStraddle : Bytes → List Bytes → Prop
  | _, [] => True
  | buf, f :: rest =>
    ¬(buf.getLast? = some 13 ∧ (f :: rest).flatten.head? = some 10) ∧ NoStraddle f rest

/-! ## Chunked transfer codec (src/http/client.ts, lines 313-370 and 558-584)

The writer side: `writeChunk` writes the chunk size in lowercase hex, a
newline (`writeLine` appends `\n`, pipe.ts line 373), the data and another
newline; `endChunked` writes a `0` size line, optional trailer lines and a
final blank line.  The reader side uses the single-buffer pipe model
(`readline` with no pending fills; the whole remainder is buffered). -/

/-- One hex digit, lowercase (JavaScript `Number.toString(16)`). -/
def hexDigitByte (d : Nat) : Nat := if d < 10 then 48 + d else 87 + d

/-- The bytes of `n.toString(16)` (lowercase hex, `"0"` for zero). -/
def hexBytes (n : Nat) : Bytes :=
  if n = 0 then [48] else (Nat.digits 16 n).reverse.map hexDigitByte

/-- `writeChunk(chunk)` (client.ts lines 558-566): the bytes it writes. -/
def writeChunkBytes (c : Bytes) : Bytes :=
  hexBytes c.length ++ [10] ++ c ++ [10]

/-- `endChunked(trailers)` (client.ts lines 571-584): the bytes it writes.
Trailer keys and values are given as their byte strings. -/
def endChunkedBytes (trailers : List (Bytes × Bytes)) : Bytes :=
  [48, 10] ++ (trailers.map fun kv => kv.1 ++ [58, 32] ++ kv.2 ++ [10]).flatten ++ [10]

/-- The full byte stream produced by writing `chunks` with `writeChunk` and
finishing with `endChunked trailers`. -/
def encodeChunked (chunks : List Bytes) (trailers : List (Bytes × Bytes)) : Bytes :=
  (chunks.map writeChunkBytes).flatten ++ endChunkedBytes trailers

/-- Single-buffer `readline`: the whole remaining stream is buffered and EOF
follows (pipe.ts `readline` with no further connection reads). -/
def readlineS (s : Bytes) (maxLength : Nat) : Except String (Option Bytes × Bytes) :=
  (readline s [] maxLength).map fun r => (r.1, r.2.1)

/-- `pipe.read(size)` with `size > 0` = `readExact` (pipe.ts lines 87-118,
205-225) on a fully buffered stream: `null` when no byte is available,
otherwise up to `size` bytes. -/
def readExactS (s : Bytes) (size : Nat) : Option Bytes × Bytes :=
  if s.length = 0 ∧ size > 0 then (none, s)
  else (some (s.take size), s.drop size)

/-- The value of a hex digit character byte (the character class
`[0-9a-fA-F]`). -/
def hexDigitVal (b : Nat) : Option Nat :=
  if 48 ≤ b ∧ b ≤ 57 then some (b - 48)
  else if 97 ≤ b ∧ b ≤ 102 then some (b - 87)
  else if 65 ≤ b ∧ b ≤ 70 then some (b - 55)
  else none

def hexDigitsHead : Bytes → Bytes
  | [] => []
  | b :: rest => if (hexDigitVal b).isSome then b :: hexDigitsHead rest else []

/-- `sizeLine.match(/^([0-9a-fA-F]+)/)` followed by `parseInt(_, 16)`
(client.ts lines 319-322): the leading run of hex digits, `none` when the
line does not start with one. -/
def hexLineSize (line : Bytes) : Option Nat :=
  let ds := hexDigitsHead line
  if ds = [] then none
  else some (ds.foldl (fun a b => 16 * a + ((hexDigitVal b).getD 0)) 0)

/-- `readChunk()` (client.ts lines 313-344) on a fully buffered stream.
Returns `none` for the terminating zero-size chunk (the source then moves to
`TRAILER` or `DONE`), otherwise the chunk data, along with the remaining
stream. -/
def readChunkS (s : Bytes) : Except String (Option Bytes × Bytes) :=
  match readlineS s 1024 with
  | Except.error e => Except.error e
  | Except.ok (sizeLine?, s1) =>
    match sizeLine? with
    | none => Except.error "Unexpected EOF reading chunk size"
    | some sizeLine =>
      if sizeLine = [] then Except.error "Unexpected EOF reading chunk size"
      else
        match hexLineSize sizeLine with
        | none => Except.error "Invalid chunk size"
        | some chunkSize =>
          if chunkSize = 0 then Except.ok (none, s1)
          else
            match readExactS s1 chunkSize with
            | (none, _) => Except.error "Unexpected EOF reading chunk data"
            | (some chunk, s2) =>
              if chunk.length ≠ chunkSize then Except.error "Unexpected EOF reading chunk data"
              else
                match readlineS s2 2 with
                | Except.error e => Except.error e
                | Except.ok (trailing?, s3) =>
                  if trailing? = some [] then Except.ok (some chunk, s3)
                  else Except.error "Missing CRLF after chunk data"

/-- The `readBody` loop over `readChunk` (client.ts lines 400-423, 428-455):
collect chunks until the zero-size terminator.  `fuel` bounds the number of
chunks read; it is a step budget for the well-founded loop, one unit per
`readChunk` call. -/
def readChunksS : Nat → Bytes → Except String (List Bytes × Bytes)
  | 0, _ => Except.error "chunk step budget exhausted"
  | fuel + 1, s =>
    match readChunkS s with
    | Except.error e => Except.error e
    | Except.ok (none, s1) => Except.ok ([], s1)
    | Except.ok (some c, s1) =>
      match readChunksS fuel s1 with
      | Except.error e => Except.error e
      | Except.ok (cs, s2) => Except.ok (c :: cs, s2)

/-- Parsed header storage: the `$headers` multimap (`Map<string, string[]>`),
keys already lowercased. -/
abbrev HeadersB := List (Bytes × List Bytes)

def headersGet : HeadersB → Bytes → Option (List Bytes)
  | [], _ => none
  | (k, vs) :: rest, key => if k = key then some vs else headersGet rest key

def headersPush : HeadersB → Bytes → Bytes → HeadersB
  | [], key, v => [(key, [v])]
  | (k, vs) :: rest, key, v =>
    if k = key then (k, vs ++ [v]) :: rest else (k, vs) :: headersPush rest key v

/-- JavaScript `String.trim` on ASCII byte strings: strip whitespace bytes
from both ends. -/
def isWsByte (b : Nat) : Bool := b = 9 || b = 10 || b = 11 || b = 12 || b = 13 || b = 32

def trimBytes (l : Bytes) : Bytes :=
  ((l.dropWhile isWsByte).reverse.dropWhile isWsByte).reverse

/-- JavaScript `String.toLowerCase` restricted to ASCII bytes. -/
def lowerBytes (l : Bytes) : Bytes :=
  l.map fun b => if 65 ≤ b ∧ b ≤ 90 then b + 32 else b

/-- `line.indexOf(':')`. -/
def colonIndex (l : Bytes) : Option Nat :=
  l.findIdx? fun b => b = 58

/-- `getHeader(name)` (client.ts lines 266-269): first stored value under the
lowercased name. -/
def getHeaderB (hs : HeadersB) (name : Bytes) : Option Bytes :=
  match headersGet hs (lowerBytes name) with
  | some (v :: _) => some v
  | _ => none

/-- `readTrailer()` (client.ts lines 349-370) on a fully buffered stream:
read header lines until an empty (or absent) line; lines without a colon are
skipped; keys are trimmed and lowercased, values trimmed; pairs accumulate
into the headers multimap.  `fuel` is the line budget. -/
def readTrailerS : Nat → HeadersB → Bytes → Except String (HeadersB × Bytes)
  | 0, _, _ => Except.error "trailer step budget exhausted"
  | fuel + 1, hs, s =>
    match readlineS s 8192 with
    | Except.error e => Except.error e
    | Except.ok (line?, s1) =>
      match line? with
      | none => Except.ok (hs, s1)
      | some line =>
        if line = [] then Except.ok (hs, s1)
        else
          match colonIndex line with
          | none => readTrailerS fuel hs s1
          | some ci =>
            let key := lowerBytes (trimBytes (line.take ci))
            let v := trimBytes (line.drop (ci + 1))
            readTrailerS fuel (headersPush hs key v) s1

/-- A well-formed trailer key: a nonempty HTTP token in printable ASCII
without a colon (so trimming is the identity and the written colon is the
first one on the line). -/
def KeyOk (k : Bytes) : Prop :=
  k ≠ [] ∧ ∀ b ∈ k, 33 ≤ b ∧ b ≤ 126 ∧ b ≠ 58

/-- A well-formed trailer value: printable ASCII spaces allowed inside but
not at either end (so the parser's trim recovers it exactly), and no line
break bytes. -/
def ValueOk (v : Bytes) : Prop :=
  (∀ b ∈ v, b ≠ 10 ∧ b ≠ 13) ∧
  (∀ b, v.head? = some b → isWsByte b = false) ∧
  (∀ b, v.getLast? = some b → isWsByte b = false)

/-! ## App lifecycle engine (core/app.ts, lines 24-229)

A promise is modelled as `Option (Nat × Except String α)`: either it never
settles or it settles at a time with a value or an error (the error carrying
the message).  The cancellation token (`$stopPromise`) is modelled by its
optional firing time plus, on the app state, a `stopFired` flag and a
generation counter `tokenGen` that increments whenever `resetStopPromise`
installs a fresh token. -/

inductive AppState where
  | UNINITIALIZED
  | INITIALIZED
  | STOPPED
  | RUNNING
  | STOPPING
deriving DecidableEq, Repr

/-- A settled or never-settling promise: settle time and outcome. -/
abbrev PromiseM (α : Type) := Option (Nat × Except String α)

/-- The outcome of `Promise.race([Promise.resolve(v), stop.then(throw)])`
inside `createWrapper` (app.ts lines 75-80): whichever settles first wins,
the stop branch turning into an `App stopped` rejection.  When both are
settled at the same instant the first-listed promise (`v`) wins. -/
def wrapperRace {α : Type} (v : PromiseM α) (token : Option Nat) : PromiseM α :=
  match v, token with
  | none, none => none
  | none, some ts => some (ts, Except.error "App stopped")
  | some tv, none => some tv
  | some tv, some ts =>
    if tv.1 ≤ ts then some tv else some (ts, Except.error "App stopped")

/-- `wrapper(v)` (app.ts lines 72-89): race `v` against the stop promise; a
caught rejection is rewritten to `App stopped` when the app state at that
moment is STOPPING or STOPPED, and re-thrown unchanged otherwise. -/
def wrapperOutcome {α : Type} (v : PromiseM α) (token : Option Nat)
    (stateAtCatch : AppState) : PromiseM α :=
  match wrapperRace v token with
  | none => none
  | some (t, Except.ok val) => some (t, Except.ok val)
  | some (t, Except.error e) =>
    if stateAtCatch = AppState.STOPPING ∨ stateAtCatch = AppState.STOPPED then
      some (t, Except.error "App stopped")
    else some (t, Except.error e)

/-- The observable per-app state (`App`'s private fields and `$stats`,
app.ts lines 48-65). -/
structure AppST where
  appState : AppState
  hasMod : Bool
  hasInfo : Bool
  startTime : Option Nat
  stopTime : Option Nat
  uptime : Nat
  restartCount : Nat
  lastError : Option String
  stopFired : Bool
  tokenGen : Nat
deriving DecidableEq, Repr

/-- `run()` (app.ts lines 152-178).  `now` is `Date.now()`; `user` is the
promise returned by the module's `run()` hook.  A no-op when already
RUNNING; `assert` failures and the illegal-state check become errors; then
the state moves to RUNNING, a fresh cancellation token is installed
(`resetStopPromise`), `startTime` is recorded, and the user promise is raced
against `delay(1000)`.  Only a rejection that settles no later than the
1-second warmup timer is caught (recording `lastError`, state STOPPED); a
later rejection is unobserved by `run()`, which has already returned. -/
def appRun (s : AppST) (now : Nat) (user : PromiseM Unit) : AppST × Except String Unit :=
  if s.appState = AppState.RUNNING then (s, Except.ok ())
  else if s.hasMod = false then (s, Except.error "App module not initialized")
  else if s.hasInfo = false then (s, Except.error "App info not initialized")
  else if s.appState ≠ AppState.INITIALIZED ∧ s.appState ≠ AppState.STOPPED then
    (s, Except.error "Cannot run app in state")
  else
    let s1 := { s with appState := AppState.RUNNING, stopFired := false,
                       tokenGen := s.tokenGen + 1, startTime := some now }
    match user with
    | some (t, Except.error e) =>
      if t ≤ 1000 then
        ({ s1 with lastError := some e, appState := AppState.STOPPED }, Except.error e)
      else (s1, Except.ok ())
    | _ => (s1, Except.ok ())

/-- `stop()` (app.ts lines 180-201).  A no-op from STOPPED or UNINITIALIZED;
from RUNNING with a module handle: state STOPPING, the stop promise is
resolved (`stopFired`), the module's `stop()` hook runs (outcome
`userStop`), then `stopTime`/`uptime` are recorded and the state becomes
STOPPED (also on a hook error, which is recorded).  The JavaScript
`if (this.$stats.startTime)` guard treats a 0 start time as absent. -/
def appStop (s : AppST) (now : Nat) (userStop : Except String Unit) :
    AppST × Except String Unit :=
  if s.appState = AppState.STOPPED ∨ s.appState = AppState.UNINITIALIZED then
    (s, Except.ok ())
  else if s.appState = AppState.RUNNING ∧ s.hasMod then
    let s1 := { s with appState := AppState.STOPPING, stopFired := true }
    match userStop with
    | Except.ok _ =>
      let up :=
        match s1.startTime with
        | some st => if st = 0 then s1.uptime else s1.uptime + (now - st)
        | none => s1.uptime
      ({ s1 with stopTime := some now, uptime := up, appState := AppState.STOPPED },
       Except.ok ())
    | Except.error e =>
      ({ s1 with lastError := some e, appState := AppState.STOPPED }, Except.error e)
  else (s, Except.ok ())

/-! ## Response writer (src/http/client.ts, lines 488-546)

`writeResponse` guards with three assertions before mutating anything:
server role, not yet sent, and `code != 204 || body`.  The body is a
JavaScript value: `undefined`, a string, or a `Uint8Array`; only `undefined`
and the empty string are falsy (an empty `Uint8Array` is an object and hence
truthy). -/

inductive JSBody where
  | str (s : String)
  | bytes (b : Bytes)
deriving DecidableEq, Repr

/-- JavaScript truthiness of the optional body argument. -/
def bodyTruthy : Option JSBody → Bool
  | none => false
  | some (JSBody.str s) => s ≠ ""
  | some (JSBody.bytes _) => true

/-- The body bytes after the `typeof body === 'string'` encoding step
(client.ts lines 503-504); ASCII-level UTF-8. -/
def bodyBytes : Option JSBody → Option Bytes
  | none => none
  | some (JSBody.str s) => some (s.toList.map Char.toNat)
  | some (JSBody.bytes b) => some b

def ROLE_SERVER : Nat := 0
def ROLE_CLIENT : Nat := 1

inductive WireProtocol where
  | HTTP
  | WEBSOCKET
  | SSE
deriving DecidableEq, Repr

/-- ASCII bytes of a Lean string (all strings written by `writeResponse` in
the claims are ASCII). -/
def strBytes (s : String) : Bytes := s.toList.map Char.toNat

/-- `writeHeaders(headers, body)` (client.ts lines 518-546): lowercase every
key, auto-inject `content-length` for plain HTTP when neither
`content-length` nor `transfer-encoding` is present, then emit each
`key: value` line and the blank separator line. -/
def writeHeadersBytes (protocol : WireProtocol) (headers : List (String × List String))
    (body : Option Bytes) : Bytes :=
  let normalized := headers.map fun kv => (kv.1.toLower, kv.2)
  let withLen :=
    if protocol = WireProtocol.HTTP ∧
        (normalized.all fun kv => kv.1 ≠ "content-length" ∧ kv.1 ≠ "transfer-encoding") then
      normalized ++ [("content-length", [toString ((body.map List.length).getD 0)])]
    else normalized
  (withLen.map fun kv => (kv.2.map fun v => strBytes kv.1 ++ [58, 32] ++ strBytes v ++ [10]).flatten).flatten
    ++ [10]

/-- `writeResponse(code, message, headers, body)` (client.ts lines 488-513).
Returns the new `sent` flag and the bytes written, or the message of the
first failing assertion (in which case nothing was written and `sent` is
unchanged). -/
def writeResponse (role : Nat) (protocol : WireProtocol) (sent : Bool) (code : Nat)
    (message : String) (headers : List (String × List String)) (body : Option JSBody) :
    Except String (Bool × Bytes) :=
  if role ≠ ROLE_SERVER then Except.error "Only servers can write responses"
  else if sent then Except.error "Cannot write response: response already sent"
  else if ¬(code ≠ 204 ∨ bodyTruthy body) then Except.error "204 response must not have a body"
  else
    let bb := bodyBytes body
    Except.ok (true,
      strBytes ("HTTP/1.1 " ++ toString code ++ " " ++ message) ++ [10]
        ++ writeHeadersBytes protocol headers bb
        ++ (bb.getD []))

/-! ## POST /@api/control/:name (route/api.ts in src/main.ts, lines 108-138)

The handler reads the plaintext body and dispatches on it.  The four
lifecycle transitions may throw; an outcome is `Except ErrInfo Unit` where
`ErrInfo` carries `getError(e)` and `String(e)`. -/

structure ErrInfo where
  msg : String
  full : String
deriving DecidableEq, Repr

inductive ApiJson where
  | errMsg (error : String)
  | errFull (error full : String)
  | success
deriving DecidableEq, Repr

/-- What the handler writes: a JSON response with a status code, or nothing
(the handler returned without sending anything). -/
inductive ApiResp where
  | json (code : Nat) (body : ApiJson)
  | nothing
deriving DecidableEq, Repr

/-- The POST `/@api/control/:name` handler.  `name?` is `ctx.params['name']`
(absent or empty string is falsy), `body` is the request text, `apps` the
manager's registered names (`manager.get` is a map lookup), and the four
transition outcomes are those of `app.run()`, `app.stop()`, `app.restart()`
and `app.init(app.info!)`. -/
def controlPost (name? : Option String) (body : String) (apps : List String)
    (runR stopR restartR reloadR : Except ErrInfo Unit) : ApiResp :=
  match name? with
  | none => ApiResp.json 400 (ApiJson.errMsg "name is required")
  | some name =>
    if name = "" then ApiResp.json 400 (ApiJson.errMsg "name is required")
    else if ¬ apps.contains name then ApiResp.json 404 (ApiJson.errMsg "app not found")
    else
      let transition : Option (Except ErrInfo Unit) :=
        if body = "START" then some runR
        else if body = "STOP" then some stopR
        else if body = "RESTART" then some restartR
        else if body = "RELOAD" then some reloadR
        else none
      match transition with
      | none => ApiResp.json 400 (ApiJson.errMsg "invalid state")
      | some (Except.ok _) => ApiResp.nothing
      | some (Except.error e) => ApiResp.json 500 (ApiJson.errFull e.msg e.full)

/-! ## Theorems -/

/-- Claim C8 (code bug evidence): the claim says `%c` consumes exactly one
argument (the CSS style) and leaves the rest for later specifiers.  In the
source the argument has already been fetched with `args[argIndex++]` and the
`%c` branch increments `argIndex` a second time, so `%c` consumes two
arguments.  Evaluating the code at `format("%c%s x", "css", "A")`: the `%s`
finds no argument left and is output literally, yielding `"%s x"` instead of
the `"A x"` required by the claim. -/
theorem format_percent_c_failing_input :
    format ["%c%s x", "css", "A"] = "%s x" ∧ format ["%c%s x", "css", "A"] ≠ "A x" := by
  exact ⟨by decide, by decide⟩

/-- `overflowMsgs` distributes over trace concatenation. -/
theorem overflowMsgs_append {α : Type} (a b : List (ConsoleEvent α)) :
    overflowMsgs (a ++ b) = overflowMsgs a ++ overflowMsgs b := by
  induction a with
  | nil => rfl
  | cons e rest ih => cases e <;> simp [overflowMsgs, ih]

/-- One console operation preserves `queue length + overflow count - pushes`. -/
theorem consoleStep_conservation {α : Type} (q : List α) (op : ConsoleOp α) :
    (consoleStep q op).1.length + overflowCount (consoleStep q op).2 =
      q.length + pushCount [op] := by
  cases op with
  | push m =>
    by_cases h : maxLogQueueLength ≤ q.length
    · cases q with
      | nil => simp [maxLogQueueLength] at h
      | cons a t =>
        have h2 : maxLogQueueLength ≤ t.length + 1 := by simpa using h
        simp [consoleStep, printerStep, h2, overflowCount, overflowMsgs, pushCount]
    · simp [consoleStep, printerStep, h, overflowCount, overflowMsgs, pushCount]
  | clear => simp [consoleStep, consoleClear, pushCount, overflowCount, overflowMsgs]

/-- Claim C9: `Console.clear()` emits a `clear` event carrying a snapshot of
the current queue and leaves the queue unchanged, and over any sequence of
console operations the only way the queue shrinks is overflow eviction: the
final queue length plus the number of `overflow` events equals the initial
length plus the number of pushes. -/
theorem console_clear_frame {α : Type} (q : List α) (ops : List (ConsoleOp α)) :
    consoleStep q ConsoleOp.clear = (q, [ConsoleEvent.clear q])
  ∧ (consoleOps q ops).1.length + overflowCount (consoleOps q ops).2 =
      q.length + pushCount ops := by
  refine ⟨rfl, ?_⟩
  induction ops generalizing q with
  | nil => simp [consoleOps, overflowCount, overflowMsgs, pushCount]
  | cons op rest ih =>
    have hstep := consoleStep_conservation q op
    have hih := ih (consoleStep q op).1
    simp only [consoleOps, overflowCount, overflowMsgs_append, List.length_append] at hih hstep ⊢
    cases op with
    | push m =>
      simp only [pushCount] at hstep ⊢
      omega
    | clear =>
      simp only [pushCount] at hstep ⊢
      omega

/-- Claim C7 (counterexample): `POST /@api/control/x` for an unregistered
app name responds 404, not the 400 the claim states. -/
theorem control_post_counterexample :
    controlPost (some "x") "START" [] (Except.ok ()) (Except.ok ()) (Except.ok ()) (Except.ok ())
      = ApiResp.json 404 (ApiJson.errMsg "app not found")
  ∧ ApiResp.json 404 (ApiJson.errMsg "app not found")
      ≠ ApiResp.json 400 (ApiJson.errMsg "app not found") := by
  exact ⟨by decide, by decide⟩

/-- Claim C7 (amended): `POST /@api/control/:name` responds 400 when the
name parameter is missing or empty and when the plaintext body is not one of
START | STOP | RESTART | RELOAD; it responds 404 when no app with that name
is registered; when the selected lifecycle transition throws it responds 500
with a JSON body carrying `error` and `full`; and on a successful transition
the handler returns without writing a response. -/
theorem control_post_amended (apps : List String) (name body : String)
    (runR stopR restartR reloadR : Except ErrInfo Unit) :
    (controlPost none body apps runR stopR restartR reloadR
      = ApiResp.json 400 (ApiJson.errMsg "name is required"))
  ∧ (controlPost (some "") body apps runR stopR restartR reloadR
      = ApiResp.json 400 (ApiJson.errMsg "name is required"))
  ∧ (name ≠ "" → apps.contains name = false →
      controlPost (some name) body apps runR stopR restartR reloadR
        = ApiResp.json 404 (ApiJson.errMsg "app not found"))
  ∧ (name ≠ "" → apps.contains name = true →
      (body = "START" →
        controlPost (some name) body apps runR stopR restartR reloadR
          = match runR with
            | Except.ok _ => ApiResp.nothing
            | Except.error e => ApiResp.json 500 (ApiJson.errFull e.msg e.full))
    ∧ (body = "STOP" →
        controlPost (some name) body apps runR stopR restartR reloadR
          = match stopR with
            | Except.ok _ => ApiResp.nothing
            | Except.error e => ApiResp.json 500 (ApiJson.errFull e.msg e.full))
    ∧ (body = "RESTART" →
        controlPost (some name) body apps runR stopR restartR reloadR
          = match restartR with
            | Except.ok _ => ApiResp.nothing
            | Except.error e => ApiResp.json 500 (ApiJson.errFull e.msg e.full))
    ∧ (body = "RELOAD" →
        controlPost (some name) body apps runR stopR restartR reloadR
          = match reloadR with
            | Except.ok _ => ApiResp.nothing
            | Except.error e => ApiResp.json 500 (ApiJson.errFull e.msg e.full))
    ∧ (body ≠ "START" → body ≠ "STOP" → body ≠ "RESTART" → body ≠ "RELOAD" →
        controlPost (some name) body apps runR stopR restartR reloadR
          = ApiResp.json 400 (ApiJson.errMsg "invalid state"))) := by
  refine ⟨rfl, by simp [controlPost], ?_, ?_⟩
  · intro hne hmem
    have hnm : ¬ name ∈ apps := by simpa using hmem
    simp [controlPost, hne, hnm]
  · intro hne hmem
    have hm : name ∈ apps := by simpa using hmem
    refine ⟨?_, ?_, ?_, ?_, ?_⟩ <;> intro hb
    · subst hb; cases runR <;> simp [controlPost, hne, hm]
    · subst hb; cases stopR <;> simp [controlPost, hne, hm]
    · subst hb; cases restartR <;> simp [controlPost, hne, hm]
    · subst hb; cases reloadR <;> simp [controlPost, hne, hm]
    · intro h2 h3 h4
      simp [controlPost, hne, hm, hb, h2, h3, h4]

/-- Claim C7 witness: the amended behaviour at concrete inputs. -/
theorem control_post_amended_witness :
    controlPost (some "a") "BOUNCE" ["a"] (Except.ok ()) (Except.ok ()) (Except.ok ()) (Except.ok ())
      = ApiResp.json 400 (ApiJson.errMsg "invalid state")
  ∧ controlPost (some "a") "START" ["a"] (Except.error ⟨"m", "f"⟩) (Except.ok ()) (Except.ok ()) (Except.ok ())
      = ApiResp.json 500 (ApiJson.errFull "m" "f") := by
  constructor
  · exact ((control_post_amended ["a"] "a" "BOUNCE" (Except.ok ()) (Except.ok ()) (Except.ok ())
      (Except.ok ())).2.2.2 (by decide) (by decide)).2.2.2.2 (by decide) (by decide) (by decide) (by decide)
  · exact (((control_post_amended ["a"] "a" "START" (Except.error ⟨"m", "f"⟩) (Except.ok ())
      (Except.ok ()) (Except.ok ())).2.2.2 (by decide) (by decide)).1 rfl).trans rfl

/-- Claim C10 (counterexample): `writeResponse(204, ...)` with an *empty
`Uint8Array` body* does not throw — a `Uint8Array` is an object and hence
truthy, so the guard `code != 204 || body` passes.  The claim's "no (or
empty) body" therefore fails for an empty byte body. -/
theorem writeResponse_204_counterexample :
    writeResponse ROLE_SERVER WireProtocol.HTTP false 204 "No Content" []
        (some (JSBody.bytes []))
      ≠ Except.error "204 response must not have a body"
  ∧ (match writeResponse ROLE_SERVER WireProtocol.HTTP false 204 "No Content" []
        (some (JSBody.bytes [])) with
     | Except.ok _ => True
     | Except.error _ => False) := by
  constructor
  · simp [writeResponse, ROLE_SERVER, bodyTruthy]
  · simp [writeResponse, ROLE_SERVER, bodyTruthy]

/-- Claim C10 (amended): `writeResponse` with status 204 throws the
assertion `204 response must not have a body` exactly when the body argument
is absent or JavaScript-falsy (the empty string); the exception is raised
before `$sent` is set and before anything is written (the model returns no
write output).  A truthy body — including an *empty* `Uint8Array` — is
accepted, and for every status code other than 204 this assertion cannot
fire: with server role and `sent` unset the call succeeds. -/
theorem writeResponse_204_guard (proto : WireProtocol) (hs : List (String × List String))
    (msg : String) (code : Nat) (body : Option JSBody) :
    (writeResponse ROLE_SERVER proto false 204 msg hs none
      = Except.error "204 response must not have a body")
  ∧ (writeResponse ROLE_SERVER proto false 204 msg hs (some (JSBody.str ""))
      = Except.error "204 response must not have a body")
  ∧ (bodyTruthy body = true →
      writeResponse ROLE_SERVER proto false 204 msg hs body
        = Except.ok (true,
            strBytes ("HTTP/1.1 " ++ toString 204 ++ " " ++ msg) ++ [10]
              ++ writeHeadersBytes proto hs (bodyBytes body) ++ ((bodyBytes body).getD [])))
  ∧ (code ≠ 204 →
      writeResponse ROLE_SERVER proto false code msg hs body
        = Except.ok (true,
            strBytes ("HTTP/1.1 " ++ toString code ++ " " ++ msg) ++ [10]
              ++ writeHeadersBytes proto hs (bodyBytes body) ++ ((bodyBytes body).getD []))) := by
  refine ⟨by simp [writeResponse, ROLE_SERVER, bodyTruthy],
          by simp [writeResponse, ROLE_SERVER, bodyTruthy], ?_, ?_⟩
  · intro ht
    simp [writeResponse, ROLE_SERVER, ht]
  · intro hc
    simp [writeResponse, ROLE_SERVER, hc]

/-- Claim C10 witness: the amended guard at concrete inputs. -/
theorem writeResponse_204_guard_witness :
    writeResponse ROLE_SERVER WireProtocol.HTTP false 204 "No Content" [] none
      = Except.error "204 response must not have a body"
  ∧ bodyTruthy (some (JSBody.str "x")) = true
  ∧ writeResponse ROLE_SERVER WireProtocol.HTTP false 204 "NC" [] (some (JSBody.str "x"))
      = Except.ok (true,
          strBytes ("HTTP/1.1 " ++ toString 204 ++ " " ++ "NC") ++ [10]
            ++ writeHeadersBytes WireProtocol.HTTP [] (bodyBytes (some (JSBody.str "x")))
            ++ ((bodyBytes (some (JSBody.str "x"))).getD [])) := by
  refine ⟨(writeResponse_204_guard WireProtocol.HTTP [] "No Content" 0 none).1, by decide, ?_⟩
  exact (writeResponse_204_guard WireProtocol.HTTP [] "NC" 0 (some (JSBody.str "x"))).2.2.1
    (by decide)

/-- Claim C1: `wrapper(v)` resolves to `v`'s value whenever `v` settles no
later than the cancellation token fires (in particular when the token never
fires), and rejects with `App stopped` as soon as the token fires first —
including for a never-settling `v`, which rejects exactly when the token
fires.  Entering `stop()` from RUNNING sets the token (`stopFired`) on the
transition to STOPPING, and the state then reaches STOPPED. -/
theorem wrapper_cancellation {α : Type} (tv ts : Nat) (val : α) (st : AppState)
    (r : Except String α) (s : AppST) (now : Nat) (us : Except String Unit) :
    (wrapperOutcome (some (tv, Except.ok val)) none st = some (tv, Except.ok val))
  ∧ (tv ≤ ts →
      wrapperOutcome (some (tv, Except.ok val)) (some ts) st = some (tv, Except.ok val))
  ∧ (wrapperOutcome (none : PromiseM α) (some ts) st = some (ts, Except.error "App stopped"))
  ∧ (ts < tv →
      wrapperOutcome (some (tv, r)) (some ts) st = some (ts, Except.error "App stopped"))
  ∧ (s.appState = AppState.RUNNING → s.hasMod = true →
      (appStop s now us).1.stopFired = true ∧
      (appStop s now us).1.appState = AppState.STOPPED) := by
  refine ⟨?_, ?_, ?_, ?_, ?_⟩
  · simp [wrapperOutcome, wrapperRace]
  · intro h
    simp [wrapperOutcome, wrapperRace, h]
  · by_cases hst : st = AppState.STOPPING ∨ st = AppState.STOPPED <;>
      simp [wrapperOutcome, wrapperRace, hst]
  · intro h
    have h2 : ¬ tv ≤ ts := by omega
    cases r with
    | ok v =>
      by_cases hst : st = AppState.STOPPING ∨ st = AppState.STOPPED <;>
        simp [wrapperOutcome, wrapperRace, h2, hst]
    | error e =>
      by_cases hst : st = AppState.STOPPING ∨ st = AppState.STOPPED <;>
        simp [wrapperOutcome, wrapperRace, h2, hst]
  · intro hrun hmod
    have h1 : ¬ (s.appState = AppState.STOPPED ∨ s.appState = AppState.UNINITIALIZED) := by
      simp [hrun]
    cases us with
    | ok u => simp [appStop, h1, hrun, hmod]
    | error e => simp [appStop, h1, hrun, hmod]

/-- Claim C1 witness: the wrapper contract at concrete inputs. -/
theorem wrapper_cancellation_witness :
    wrapperOutcome (some (1, Except.ok (0 : Nat))) (some 2) AppState.RUNNING
      = some (1, Except.ok 0)
  ∧ wrapperOutcome (some (7, Except.ok (0 : Nat))) (some 2) AppState.STOPPING
      = some (2, Except.error "App stopped")
  ∧ (appStop ⟨AppState.RUNNING, true, true, some 5, none, 0, 0, none, false, 3⟩ 9
      (Except.ok ())).1.stopFired = true := by
  refine ⟨?_, ?_, ?_⟩
  · exact (wrapper_cancellation 1 2 (0 : Nat) AppState.RUNNING (Except.ok 0)
      ⟨AppState.RUNNING, true, true, some 5, none, 0, 0, none, false, 3⟩ 9
      (Except.ok ())).2.1 (by decide)
  · exact (wrapper_cancellation 7 2 (0 : Nat) AppState.STOPPING (Except.ok 0)
      ⟨AppState.RUNNING, true, true, some 5, none, 0, 0, none, false, 3⟩ 9
      (Except.ok ())).2.2.2.1 (by decide)
  · exact ((wrapper_cancellation 1 2 (0 : Nat) AppState.RUNNING (Except.ok 0)
      ⟨AppState.RUNNING, true, true, some 5, none, 0, 0, none, false, 3⟩ 9
      (Except.ok ())).2.2.2.2 rfl rfl).1

/-- Claim C6 (counterexample): a user `run()` that rejects *after* the
1-second warmup race has completed is not caught by `App.run`: the state
stays RUNNING, `lastError` stays unset, and `run()` returns normally —
contradicting the claim's "for every error thrown by the user's run()". -/
theorem app_run_counterexample :
    (appRun ⟨AppState.INITIALIZED, true, true, none, none, 0, 0, none, false, 0⟩ 5
        (some (2000, Except.error "boom"))).1.appState = AppState.RUNNING
  ∧ (appRun ⟨AppState.INITIALIZED, true, true, none, none, 0, 0, none, false, 0⟩ 5
        (some (2000, Except.error "boom"))).1.lastError = none
  ∧ (appRun ⟨AppState.INITIALIZED, true, true, none, none, 0, 0, none, false, 0⟩ 5
        (some (2000, Except.error "boom"))).2 = Except.ok () := by
  exact ⟨rfl, rfl, rfl⟩

/-- Claim C6 (amended): `App.run()` is a no-op from RUNNING and is permitted
from INITIALIZED or STOPPED (any other state errors); on a permitted run it
records `startTime := now`, moves to RUNNING and installs a fresh
cancellation token; and an error thrown by the user's `run()` is recorded in
`lastError` with the state moving to STOPPED exactly when it settles within
the 1-second warmup race — a rejection after the race leaves the state
RUNNING with `lastError` unchanged, and a non-rejecting `run()` leaves the
call returning normally with the state RUNNING. -/
theorem app_run_amended (s : AppST) (now : Nat) (user : PromiseM Unit) :
    (s.appState = AppState.RUNNING → appRun s now user = (s, Except.ok ()))
  ∧ (s.hasMod = true → s.hasInfo = true →
      (s.appState = AppState.INITIALIZED ∨ s.appState = AppState.STOPPED) →
        ((appRun s now user).1.startTime = some now
          ∧ (appRun s now user).1.tokenGen = s.tokenGen + 1
          ∧ (appRun s now user).1.stopFired = false)
      ∧ (∀ t e, user = some (t, Except.error e) → t ≤ 1000 →
          (appRun s now user).1.appState = AppState.STOPPED
          ∧ (appRun s now user).1.lastError = some e
          ∧ (appRun s now user).2 = Except.error e)
      ∧ (∀ t e, user = some (t, Except.error e) → 1000 < t →
          (appRun s now user).1.appState = AppState.RUNNING
          ∧ (appRun s now user).1.lastError = s.lastError
          ∧ (appRun s now user).2 = Except.ok ())
      ∧ ((∀ t e, user ≠ some (t, Except.error e)) →
          (appRun s now user).1.appState = AppState.RUNNING
          ∧ (appRun s now user).2 = Except.ok ()))
  ∧ (s.hasMod = true → s.hasInfo = true →
      (s.appState = AppState.UNINITIALIZED ∨ s.appState = AppState.STOPPING) →
      appRun s now user = (s, Except.error "Cannot run app in state")) := by
  refine ⟨?_, ?_, ?_⟩
  · intro h
    simp [appRun, h]
  · intro hmod hinfo hstate
    have hnr : s.appState ≠ AppState.RUNNING := by
      rcases hstate with h | h <;> simp [h]
    have hok : ¬ (s.appState ≠ AppState.INITIALIZED ∧ s.appState ≠ AppState.STOPPED) := by
      rcases hstate with h | h <;> simp [h]
    refine ⟨?_, ?_, ?_, ?_⟩
    · rcases user with _ | ⟨t, r⟩
      · simp [appRun, hnr, hmod, hinfo, hok]
      · cases r with
        | ok v => simp [appRun, hnr, hmod, hinfo, hok]
        | error e => by_cases ht : t ≤ 1000 <;> simp [appRun, hnr, hmod, hinfo, hok, ht]
    · intro t e hu ht
      subst hu
      simp [appRun, hnr, hmod, hinfo, hok, ht]
    · intro t e hu ht
      subst hu
      have ht2 : ¬ t ≤ 1000 := by omega
      simp [appRun, hnr, hmod, hinfo, hok, ht2]
    · intro hne
      rcases user with _ | ⟨t, r⟩
      · simp [appRun, hnr, hmod, hinfo, hok]
      · cases r with
        | ok v => simp [appRun, hnr, hmod, hinfo, hok]
        | error e => exact absurd rfl (hne t e)
  · intro hmod hinfo hstate
    have hnr : s.appState ≠ AppState.RUNNING := by
      rcases hstate with h | h <;> simp [h]
    have hbad : s.appState ≠ AppState.INITIALIZED ∧ s.appState ≠ AppState.STOPPED := by
      rcases hstate with h | h <;> simp [h]
    simp [appRun, hnr, hmod, hinfo, hbad]

/-- Claim C6 witness: the amended contract at concrete inputs. -/
theorem app_run_amended_witness :
    (appRun ⟨AppState.INITIALIZED, true, true, none, none, 0, 0, none, false, 4⟩ 7
        (some (500, Except.error "boom"))).1.appState = AppState.STOPPED
  ∧ (appRun ⟨AppState.INITIALIZED, true, true, none, none, 0, 0, none, false, 4⟩ 7
        (some (500, Except.error "boom"))).1.lastError = some "boom"
  ∧ (appRun ⟨AppState.INITIALIZED, true, true, none, none, 0, 0, none, false, 4⟩ 7
        (some (500, Except.error "boom"))).1.startTime = some 7 := by
  refine ⟨?_, ?_, ?_⟩
  · exact ((app_run_amended ⟨AppState.INITIALIZED, true, true, none, none, 0, 0, none, false, 4⟩
      7 (some (500, Except.error "boom"))).2.1 rfl rfl (Or.inl rfl)).2.1 500 "boom" rfl
      (by decide) |>.1
  · exact (((app_run_amended ⟨AppState.INITIALIZED, true, true, none, none, 0, 0, none, false, 4⟩
      7 (some (500, Except.error "boom"))).2.1 rfl rfl (Or.inl rfl)).2.1 500 "boom" rfl
      (by decide)).2.1
  · exact ((app_run_amended ⟨AppState.INITIALIZED, true, true, none, none, 0, 0, none, false, 4⟩
      7 (some (500, Except.error "boom"))).2.1 rfl rfl (Or.inl rfl)).1.1

/-- The printer keeps the queue within the bound. -/
theorem printerStep_length {α : Type} (q : List α) (m : α)
    (hq : q.length ≤ maxLogQueueLength) :
    (printerStep q m).1.length ≤ maxLogQueueLength := by
  by_cases h : maxLogQueueLength ≤ q.length
  · cases q with
    | nil => simp [maxLogQueueLength] at h
    | cons a t =>
      have h2 : maxLogQueueLength ≤ t.length + 1 := by simpa using h
      have h3 : t.length + 1 ≤ maxLogQueueLength := by simpa using hq
      simp [printerStep, h2]
      omega
  · simp [printerStep, h]
    omega

theorem consoleRun_length {α : Type} :
    ∀ (ms q : List α), q.length ≤ maxLogQueueLength →
      (consoleRun q ms).1.length ≤ maxLogQueueLength
  | [], q, hq => by simpa [consoleRun] using hq
  | m :: rest, q, hq => by
    simp only [consoleRun]
    exact consoleRun_length rest (printerStep q m).1 (printerStep_length q m hq)

/-- Shifting a trace block across one push. -/
theorem traceBlock_shift {α : Type} (q : List α) (m : α) (rest : List α)
    (hq : q.length ≤ maxLogQueueLength) (i : Nat) :
    traceBlock q (m :: rest) (i + 1) = traceBlock (printerStep q m).1 rest i := by
  by_cases hfull : maxLogQueueLength ≤ q.length
  · cases q with
    | nil => simp [maxLogQueueLength] at hfull
    | cons a t =>
      have hc2 : maxLogQueueLength ≤ t.length + 1 := by simpa using hfull
      have ht : t.length = 19 := by
        have h1 : t.length + 1 ≤ maxLogQueueLength := by simpa using hq
        simp [maxLogQueueLength] at h1 hc2
        omega
      have hstep : (printerStep (a :: t) m).1 = t ++ [m] := by
        simp [printerStep, hc2]
      rw [hstep]
      have e1 : maxLogQueueLength ≤ (a :: t).length + (i + 1) := by
        simp [maxLogQueueLength, ht]
      have e2 : maxLogQueueLength ≤ (t ++ [m]).length + i := by
        simp [maxLogQueueLength, ht]
      have e3 : (a :: t).length + (i + 1) - maxLogQueueLength = i + 1 := by
        simp [maxLogQueueLength, ht]
      have e4 : (t ++ [m]).length + i - maxLogQueueLength = i := by
        simp [maxLogQueueLength, ht]
      simp only [traceBlock, if_pos e1, if_pos e2, e3, e4]
      have e5 : ((a :: t) ++ m :: rest).get? (i + 1) = ((t ++ [m]) ++ rest).get? i := by
        simp [List.cons_append, List.get?_cons_succ, List.append_assoc]
      rw [e5]
      simp [List.get?_cons_succ]
  · have hstep : (printerStep q m).1 = q ++ [m] := by
      simp [printerStep, hfull]
    rw [hstep]
    have e0 : (q ++ [m]).length + i = q.length + (i + 1) := by
      simp
      omega
    have e5 : q ++ m :: rest = (q ++ [m]) ++ rest := by simp
    simp only [traceBlock, e0, e5, List.get?_cons_succ]

/-- Unfolding one push of the expected trace. -/
theorem expectedTrace_cons {α : Type} (q : List α) (m : α) (rest : List α)
    (hq : q.length ≤ maxLogQueueLength) :
    expectedTrace q (m :: rest)
      = (printerStep q m).2 ++ expectedTrace (printerStep q m).1 rest := by
  unfold expectedTrace
  rw [List.length_cons, List.range_succ_eq_map, List.flatMap_cons, List.flatMap_map]
  congr 1
  · by_cases hfull : maxLogQueueLength ≤ q.length
    · cases q with
      | nil => simp [maxLogQueueLength] at hfull
      | cons a t =>
        have h2 : maxLogQueueLength ≤ t.length + 1 := by simpa using hfull
        have h1 : t.length + 1 ≤ maxLogQueueLength := by simpa using hq
        have e3 : t.length + 1 - maxLogQueueLength = 0 := by omega
        simp [traceBlock, printerStep, h2, e3]
    · have e1 : ¬ maxLogQueueLength ≤ q.length + 0 := by simpa using hfull
      simp [traceBlock, printerStep, if_neg e1, hfull]
  · exact List.flatMap_congr fun i _ => traceBlock_shift q m rest hq i

/-- The console trace is exactly the expected per-push trace. -/
theorem consoleRun_trace {α : Type} :
    ∀ (ms q : List α), q.length ≤ maxLogQueueLength →
      (consoleRun q ms).2 = expectedTrace q ms
  | [], q, _ => by simp [consoleRun, expectedTrace]
  | m :: rest, q, hq => by
    rw [expectedTrace_cons q m rest hq]
    simp only [consoleRun]
    rw [consoleRun_trace rest (printerStep q m).1 (printerStep_length q m hq)]

/-- The overflowed messages are exactly the first `|q| + |ms| - 20` elements
of the pushed stream. -/
theorem consoleRun_overflow {α : Type} :
    ∀ (ms q : List α), q.length ≤ maxLogQueueLength →
      overflowMsgs (consoleRun q ms).2
        = (q ++ ms).take (q.length + ms.length - maxLogQueueLength)
  | [], q, hq => by
    have e : q.length - maxLogQueueLength = 0 := by omega
    simp [consoleRun, overflowMsgs, e]
  | m :: rest, q, hq => by
    simp only [consoleRun, overflowMsgs_append]
    by_cases hfull : maxLogQueueLength ≤ q.length
    · cases q with
      | nil => simp [maxLogQueueLength] at hfull
      | cons a t =>
        have h2 : maxLogQueueLength ≤ t.length + 1 := by simpa using hfull
        have ht : t.length = 19 := by
          have h1 : t.length + 1 ≤ maxLogQueueLength := by simpa using hq
          simp [maxLogQueueLength] at h1 h2
          omega
        have hstep : printerStep (a :: t) m
            = (t ++ [m], [ConsoleEvent.overflow a, ConsoleEvent.log m]) := by
          simp [printerStep, maxLogQueueLength, ht]
        rw [hstep]
        have hrec := consoleRun_overflow rest (t ++ [m]) (by simp [maxLogQueueLength, ht])
        rw [hrec]
        have e1 : (t ++ [m]).length + rest.length - maxLogQueueLength = rest.length := by
          simp [maxLogQueueLength, ht]
        have e2 : (a :: t).length + (m :: rest).length - maxLogQueueLength
            = rest.length + 1 := by
          simp [maxLogQueueLength, ht]
        rw [e1, e2]
        simp [overflowMsgs, List.append_assoc]
    · have hstep : printerStep q m = (q ++ [m], [ConsoleEvent.log m]) := by
        simp [printerStep, hfull]
      rw [hstep]
      have hrec := consoleRun_overflow rest (q ++ [m]) (by simp; omega)
      rw [hrec]
      have e1 : (q ++ [m]).length + rest.length = q.length + (m :: rest).length := by
        simp
        omega
      have e2 : (q ++ [m]) ++ rest = q ++ m :: rest := by simp
      rw [e1, e2]
      simp [overflowMsgs]

/-- Counting `overflow m` events is counting `m` among the overflowed
messages. -/
theorem count_overflow_eq {α : Type} [DecidableEq α] (es : List (ConsoleEvent α)) (m : α) :
    es.count (ConsoleEvent.overflow m) = (overflowMsgs es).count m := by
  induction es with
  | nil => rfl
  | cons e rest ih =>
    cases e with
    | log x => simp [overflowMsgs, List.count_cons, ih]
    | overflow x => simp [overflowMsgs, List.count_cons, ih]
    | clear s => simp [overflowMsgs, List.count_cons, ih]

/-- Claim C3: from an empty queue, after every push the queue holds at most
`maxLogQueueLength` (20) messages; the messages evicted are exactly the
first `|ms| - 20` pushed, each emitted as an `overflow` event exactly once
(distinct messages — the source attaches a fresh UUID to each); and the full
event trace equals the per-push block trace in which the `overflow` of each
evicted message is emitted immediately before the `log` of the push that
displaced it. -/
theorem console_log_fifo_bound {α : Type} [DecidableEq α] (ms : List α) :
    (∀ i, (consoleRun ([] : List α) (ms.take i)).1.length ≤ maxLogQueueLength)
  ∧ overflowMsgs (consoleRun ([] : List α) ms).2
      = ms.take (ms.length - maxLogQueueLength)
  ∧ (ms.Nodup → ∀ m ∈ ms.take (ms.length - maxLogQueueLength),
      (consoleRun ([] : List α) ms).2.count (ConsoleEvent.overflow m) = 1)
  ∧ (consoleRun ([] : List α) ms).2 = expectedTrace [] ms := by
  have hovf : overflowMsgs (consoleRun ([] : List α) ms).2
      = ms.take (ms.length - maxLogQueueLength) := by
    simpa using consoleRun_overflow ms [] (by simp)
  refine ⟨fun i => consoleRun_length _ _ (by simp), hovf, ?_,
    consoleRun_trace ms [] (by simp)⟩
  intro hnd m hm
  rw [count_overflow_eq, hovf]
  exact List.count_eq_one_of_mem (hnd.sublist (List.take_sublist _ _)) hm

/-- Claim C3 witness: the bound, eviction list and uniqueness at a concrete
push sequence of 25 distinct messages. -/
theorem console_log_fifo_bound_witness :
    (consoleRun ([] : List Nat) ((List.range 25).take 3)).1.length ≤ maxLogQueueLength
  ∧ overflowMsgs (consoleRun ([] : List Nat) (List.range 25)).2
      = (List.range 25).take ((List.range 25).length - maxLogQueueLength)
  ∧ (consoleRun ([] : List Nat) (List.range 25)).2.count (ConsoleEvent.overflow 3) = 1 := by
  refine ⟨(console_log_fifo_bound (List.range 25)).1 3,
    (console_log_fifo_bound (List.range 25)).2.1, ?_⟩
  exact (console_log_fifo_bound (List.range 25)).2.2.1 (by decide) 3 (by decide)

/-- A successful `Map.get` on the children map witnesses membership. -/
theorem lookupChild_mem : ∀ (l : List (String × RouteNode)) (s : String) (c : RouteNode),
    lookupChild l s = some c → (s, c) ∈ l
  | [], s, c, h => by simp [lookupChild] at h
  | (k, n) :: rest, s, c, h => by
    by_cases hk : k = s
    · subst hk
      simp [lookupChild] at h
      subst h
      exact List.mem_cons_self _ _
    · simp [lookupChild, hk] at h
      exact List.mem_cons_of_mem _ (lookupChild_mem rest s c h)

theorem paramsKeys_append (p : Params) (x : String × String) :
    paramsKeys (p ++ [x]) = paramsKeys p ++ [x.1] := by
  simp [paramsKeys]

/-- Setting a fresh key appends it. -/
theorem paramsSet_fresh : ∀ (p : Params) (name v : String), name ∉ paramsKeys p →
    paramsSet p name v = p ++ [(name, v)]
  | [], _, _, _ => rfl
  | (k, w) :: rest, name, v, h => by
    simp only [paramsKeys, List.map_cons, List.mem_cons, not_or] at h
    have hk : ¬ k = name := fun e => h.1 e.symm
    simp only [paramsSet, if_neg hk, List.cons_append]
    rw [paramsSet_fresh rest name v (by simpa [paramsKeys] using h.2)]

/-- Deleting a key that was fresh before it was appended restores the
object. -/
theorem paramsDelete_fresh : ∀ (p : Params) (name v : String), name ∉ paramsKeys p →
    paramsDelete (p ++ [(name, v)]) name = p
  | [], name, v, _ => by simp [paramsDelete]
  | (k, w) :: rest, name, v, h => by
    simp only [paramsKeys, List.map_cons, List.mem_cons, not_or] at h
    have hk : ¬ k = name := fun e => h.1 e.symm
    simp only [List.cons_append, paramsDelete, if_neg hk]
    exact congrArg (List.cons (k, w)) (paramsDelete_fresh rest name v (by simpa [paramsKeys] using h.2))

/-- The parameter-then-wildcard step: under shadow-freedom and a params
object whose keys are undeclared in the subtree, a failing step restores the
params object exactly, and a successful step returns the handler of a
matched descent together with exactly its declared bindings appended. -/
theorem matchAfterParam_spec (rest : List String) (seg : String) (node : RouteNode)
    (p : Params) (hns : NoShadow node)
    (hdisj : ∀ n ∈ paramsKeys p, ¬ DeclaredIn n node)
    (IH : ∀ (child : RouteNode) (q : Params), NoShadow child →
      (∀ n ∈ paramsKeys q, ¬ DeclaredIn n child) →
      ((matchAux child rest q).1 = none → (matchAux child rest q).2 = q)
      ∧ (∀ h, (matchAux child rest q).1 = some h →
          ∃ bs, MatchedPath child rest h bs ∧ (matchAux child rest q).2 = q ++ bs)) :
    ((matchAfterParam (fun c q => matchAux c rest q) node seg p).1 = none →
      (matchAfterParam (fun c q => matchAux c rest q) node seg p).2 = p)
  ∧ (∀ h, (matchAfterParam (fun c q => matchAux c rest q) node seg p).1 = some h →
      ∃ bs, MatchedPath node (seg :: rest) h bs ∧
        (matchAfterParam (fun c q => matchAux c rest q) node seg p).2 = p ++ bs) := by
  obtain ⟨hShadow, hParamNS, hChildNS, hWildNS⟩ := hns
  cases hpc : node.paramchild with
  | none =>
    cases hwc : node.wildcardchild with
    | none =>
      refine ⟨fun _ => ?_, fun h hh => ?_⟩
      · simp [matchAfterParam, hpc, hwc]
      · simp [matchAfterParam, hpc, hwc] at hh
    | some w =>
      refine ⟨fun _ => ?_, fun h hh => ?_⟩
      · simp [matchAfterParam, hpc, hwc]
      · simp only [matchAfterParam, hpc, hwc] at hh
        exact ⟨[], MatchedPath.wildcard hwc hh, by simp [matchAfterParam, hpc, hwc]⟩
  | some nc =>
    obtain ⟨name, child⟩ := nc
    have hfresh : name ∉ paramsKeys p := fun hm => hdisj name hm (DeclaredIn.here hpc)
    have hset : paramsSet p name seg = p ++ [(name, seg)] := paramsSet_fresh p name seg hfresh
    have hchildNS : NoShadow child := hParamNS name child hpc
    have hchildDisj : ∀ n ∈ paramsKeys (paramsSet p name seg), ¬ DeclaredIn n child := by
      rw [hset, paramsKeys_append]
      intro n hn
      rcases List.mem_append.mp hn with hn | hn
      · exact fun hd => hdisj n hn (DeclaredIn.inParam hpc hd)
      · simp only [List.mem_singleton] at hn
        subst hn
        exact hShadow n child hpc
    have hIH := IH child (paramsSet p name seg) hchildNS hchildDisj
    cases hr : (matchAux child rest (paramsSet p name seg)).1 with
    | some h0 =>
      obtain ⟨bs, hmp, heq⟩ := hIH.2 h0 hr
      have happ : matchAfterParam (fun c q => matchAux c rest q) node seg p
          = matchAux child rest (paramsSet p name seg) := by
        simp [matchAfterParam, hpc, hr]
      refine ⟨fun hnone => ?_, fun h hh => ?_⟩
      · rw [happ, hr] at hnone
        cases hnone
      · rw [happ] at hh ⊢
        rw [hr] at hh
        injection hh with e
        subst e
        refine ⟨(name, seg) :: bs, MatchedPath.param hpc hmp, ?_⟩
        rw [heq, hset]
        simp
    | none =>
      have hr2 : (matchAux child rest (paramsSet p name seg)).2 = paramsSet p name seg :=
        hIH.1 hr
      cases hwc : node.wildcardchild with
      | none =>
        have happ : matchAfterParam (fun c q => matchAux c rest q) node seg p
            = (none, paramsDelete (matchAux child rest (paramsSet p name seg)).2 name) := by
          simp [matchAfterParam, hpc, hr, hwc]
        refine ⟨fun _ => ?_, fun h hh => ?_⟩
        · rw [happ]
          show paramsDelete (matchAux child rest (paramsSet p name seg)).2 name = p
          rw [hr2, hset]
          exact paramsDelete_fresh p name seg hfresh
        · rw [happ] at hh
          cases hh
      | some w =>
        have happ : matchAfterParam (fun c q => matchAux c rest q) node seg p
            = (w.handler, paramsDelete (matchAux child rest (paramsSet p name seg)).2 name) := by
          simp [matchAfterParam, hpc, hr, hwc]
        refine ⟨fun _ => ?_, fun h hh => ?_⟩
        · rw [happ]
          show paramsDelete (matchAux child rest (paramsSet p name seg)).2 name = p
          rw [hr2, hset]
          exact paramsDelete_fresh p name seg hfresh
        · rw [happ] at hh ⊢
          refine ⟨[], MatchedPath.wildcard hwc hh, ?_⟩
          show paramsDelete (matchAux child rest (paramsSet p name seg)).2 name = p ++ []
          rw [hr2, hset, paramsDelete_fresh p name seg hfresh]
          simp

/-- The matcher under shadow-freedom: a failed match restores the params
object; a successful match returns a handler reachable by a descent whose
declared bindings are exactly what was appended to the params object. -/
theorem matchAux_spec : ∀ (segs : List String) (node : RouteNode) (p : Params),
    NoShadow node → (∀ n ∈ paramsKeys p, ¬ DeclaredIn n node) →
    ((matchAux node segs p).1 = none → (matchAux node segs p).2 = p)
  ∧ (∀ h, (matchAux node segs p).1 = some h →
      ∃ bs, MatchedPath node segs h bs ∧ (matchAux node segs p).2 = p ++ bs)
  | [], node, p, _, _ => by
    refine ⟨fun _ => rfl, fun h hh => ?_⟩
    exact ⟨[], MatchedPath.done (by simpa [matchAux] using hh), by simp [matchAux]⟩
  | seg :: rest, node, p, hns, hdisj => by
    have IH : ∀ (child : RouteNode) (q : Params), NoShadow child →
        (∀ n ∈ paramsKeys q, ¬ DeclaredIn n child) →
        ((matchAux child rest q).1 = none → (matchAux child rest q).2 = q)
        ∧ (∀ h, (matchAux child rest q).1 = some h →
            ∃ bs, MatchedPath child rest h bs ∧ (matchAux child rest q).2 = q ++ bs) :=
      fun child q hc hd => matchAux_spec rest child q hc hd
    cases hsc : lookupChild node.children seg with
    | none =>
      have heq : matchAux node (seg :: rest) p
          = matchAfterParam (fun c q => matchAux c rest q) node seg p := by
        simp [matchAux, hsc]
      rw [heq]
      exact matchAfterParam_spec rest seg node p hns hdisj IH
    | some child =>
      obtain ⟨hShadow, hParamNS, hChildNS, hWildNS⟩ := hns
      have hns2 : NoShadow node := NoShadow.mk hShadow hParamNS hChildNS hWildNS
      have hchildNS : NoShadow child := hChildNS seg child (lookupChild_mem _ _ _ hsc)
      have hchildDisj : ∀ n ∈ paramsKeys p, ¬ DeclaredIn n child :=
        fun n hn hd => hdisj n hn (DeclaredIn.inStatic (lookupChild_mem _ _ _ hsc) hd)
      have hIH := IH child p hchildNS hchildDisj
      cases hr : (matchAux child rest p).1 with
      | some h0 =>
        have heq : matchAux node (seg :: rest) p = matchAux child rest p := by
          simp [matchAux, hsc, hr]
        rw [heq]
        obtain ⟨bs, hmp, hp2⟩ := hIH.2 h0 hr
        refine ⟨fun hnone => ?_, fun h hh => ?_⟩
        · rw [hr] at hnone
          cases hnone
        · rw [hr] at hh
          injection hh with e
          subst e
          exact ⟨bs, MatchedPath.static hsc hmp, hp2⟩
      | none =>
        have hp2 : (matchAux child rest p).2 = p := hIH.1 hr
        have heq : matchAux node (seg :: rest) p
            = matchAfterParam (fun c q => matchAux c rest q) node seg
                (matchAux child rest p).2 := by
          simp [matchAux, hsc, hr]
        rw [heq, hp2]
        exact matchAfterParam_spec rest seg node p hns2 hdisj IH

/-- Claim C2 (counterexample): with routes `/:x/:x/end` (handler 1) and
`/:x/*` (handler 2) registered, matching `GET /a/b/c` returns handler 2 with
an *empty* params object, while the matched route's declared bindings are
`x = "a"`: the failed speculative descent through the second `:x` deleted
the outer `x` binding along with its own. -/
theorem router_params_counterexample :
    matchroute cexRouter "GET" "/a/b/c" = some (2, ([] : Params))
  ∧ routerLookup cexRouter "GET" = some cexRoot
  ∧ MatchedPath cexRoot (parsepath "/a/b/c") 2 [("x", "a")]
  ∧ ([] : Params) ≠ [("x", "a")] := by
  refine ⟨by decide, rfl, ?_, by decide⟩
  have hp : parsepath "/a/b/c" = ["a", "b", "c"] := by decide
  rw [hp]
  exact MatchedPath.param rfl (MatchedPath.wildcard rfl rfl)

/-- No parameter can be declared anywhere in a childless leaf. -/
theorem not_declaredIn_leaf (n : String) (h : Option Nat) :
    ¬ DeclaredIn n (RouteNode.mk h [] none none) := by
  intro hd
  cases hd with
  | here hpc => exact Option.noConfusion hpc
  | inParam hpc _ => exact Option.noConfusion hpc
  | inStatic hmem _ => simp [RouteNode.children] at hmem
  | inWildcard hwc _ => exact Option.noConfusion hwc

theorem leaf_noShadow (h : Option Nat) : NoShadow (RouteNode.mk h [] none none) :=
  NoShadow.mk (fun _ _ hpc => Option.noConfusion hpc)
    (fun _ _ hpc => Option.noConfusion hpc)
    (fun s c hm => by simp [RouteNode.children] at hm)
    (fun c hw => Option.noConfusion hw)

theorem wMid_noShadow : NoShadow wMid := by
  refine NoShadow.mk (fun name child hpc => ?_) (fun name child hpc => ?_)
    (fun s child hmem => by simp [wMid, RouteNode.children] at hmem)
    (fun child hwc => Option.noConfusion hwc)
  · have h2 : name = "id" ∧ child = wLeaf := by
      have h1 : (some ("id", wLeaf) : Option (String × RouteNode)) = some (name, child) := hpc
      simpa [eq_comm] using h1
    obtain ⟨hn, hc⟩ := h2
    subst hn
    subst hc
    exact not_declaredIn_leaf "id" (some 7)
  · have h2 : name = "id" ∧ child = wLeaf := by
      have h1 : (some ("id", wLeaf) : Option (String × RouteNode)) = some (name, child) := hpc
      simpa [eq_comm] using h1
    obtain ⟨-, hc⟩ := h2
    subst hc
    exact leaf_noShadow (some 7)

theorem wRoot_noShadow : NoShadow wRoot := by
  refine NoShadow.mk (fun name child hpc => Option.noConfusion hpc)
    (fun name child hpc => Option.noConfusion hpc) (fun s child hmem => ?_)
    (fun child hwc => Option.noConfusion hwc)
  have hmem2 : s = "user" ∧ child = wMid := by
    simpa [wRoot, RouteNode.children] using hmem
  obtain ⟨-, hc⟩ := hmem2
  subst hc
  exact wMid_noShadow

/-- Claim C2 (amended): at each trie node the matcher tries the static child
first, then the parameter child, then the wildcard child, and the parameter
binding captured by a failed speculative descent is deleted before the
wildcard alternative.  Because the deletion removes the key outright, an
outer binding of the same name is destroyed with it; when no parameter name
is shadowed along any path of the trie (`NoShadow`), the params object
returned with a matched handler contains exactly the parameter names
declared on the matched route, each bound to the path segment it consumed
(`MatchedPath`). -/
theorem router_match_amended :
    (∀ (node : RouteNode) (seg : String) (rest : List String) (p : Params)
        (child : RouteNode),
      lookupChild node.children seg = some child →
      (matchAux child rest p).1.isSome = true →
      matchAux node (seg :: rest) p = matchAux child rest p)
  ∧ (∀ (node : RouteNode) (seg : String) (rest : List String) (p : Params)
        (name : String) (child : RouteNode),
      lookupChild node.children seg = none →
      node.paramchild = some (name, child) →
      ((matchAux child rest (paramsSet p name seg)).1.isSome = true →
        matchAux node (seg :: rest) p = matchAux child rest (paramsSet p name seg))
      ∧ ((matchAux child rest (paramsSet p name seg)).1 = none →
        matchAux node (seg :: rest) p
          = ((match node.wildcardchild with
              | some w => w.handler
              | none => none),
             paramsDelete (matchAux child rest (paramsSet p name seg)).2 name)))
  ∧ (∀ (t : RouterTable) (method path : String) (root : RouteNode) (h : Nat) (p : Params),
      routerLookup t method = some root → NoShadow root →
      matchroute t method path = some (h, p) →
      MatchedPath root (parsepath path) h p) := by
  refine ⟨?_, ?_, ?_⟩
  · intro node seg rest p child hsc hsome
    simp [matchAux, hsc, hsome]
  · intro node seg rest p name child hsc hpc
    constructor
    · intro hsome
      simp [matchAux, hsc, matchAfterParam, hpc, hsome]
    · intro hnone
      simp [matchAux, hsc, matchAfterParam, hpc, hnone]
  · intro t method path root h p hlook hns hm
    simp only [matchroute, hlook] at hm
    simp only [matchrouteNode] at hm
    cases hr : (matchAux root (parsepath path) []).1 with
    | none =>
      rw [hr] at hm
      cases hm
    | some h0 =>
      rw [hr] at hm
      simp only [Option.some.injEq, Prod.mk.injEq] at hm
      obtain ⟨hh, hp⟩ := hm
      subst hh
      obtain ⟨bs, hmp, he⟩ :=
        (matchAux_spec (parsepath path) root [] hns (by simp [paramsKeys])).2 h0 hr
      rw [he] at hp
      simp only [List.nil_append] at hp
      rw [← hp]
      exact hmp

/-- Claim C2 witness: the amended statement at the shadow-free trie
`GET /user/:id` and the request `GET /user/42`. -/
theorem router_match_amended_witness :
    MatchedPath wRoot (parsepath "/user/42") 7 [("id", "42")] :=
  router_match_amended.2.2 wTable "GET" "/user/42" wRoot 7 [("id", "42")] rfl
    wRoot_noShadow (by decide)

/-- A byte string without `\n` has no line terminator. -/
theorem findNewline_none_of_no_lf : ∀ (t : Bytes), (∀ b ∈ t, b ≠ 10) → findNewline t = none
  | [], _ => rfl
  | b :: rest, h => by
    have hb : b ≠ 10 := h b (List.mem_cons_self _ _)
    have hr : rest.head? ≠ some 10 := by
      cases rest with
      | nil => simp
      | cons r rs =>
        have : r ≠ 10 := h r (by simp)
        simpa using this
    simp only [findNewline, if_neg hb, if_neg (fun hc : _ ∧ _ => hr hc.2)]
    rw [findNewline_none_of_no_lf rest (fun x hx => h x (List.mem_cons_of_mem _ hx))]
    rfl

/-- A failed scan means the buffer holds no `\n`. -/
theorem no_lf_of_findNewline_none : ∀ (t : Bytes), findNewline t = none → ∀ b ∈ t, b ≠ 10
  | [], _ => by
    intro b hb
    simp at hb
  | b :: rest, h => by
    simp only [findNewline] at h
    by_cases hb : b = 10
    · rw [if_pos hb] at h
      cases h
    · rw [if_neg hb] at h
      by_cases hc : b = 13 ∧ rest.head? = some 10
      · rw [if_pos hc] at h
        cases h
      · rw [if_neg hc] at h
        have hr : findNewline rest = none := by
          cases hfr : findNewline rest with
          | none => rfl
          | some v =>
            rw [hfr] at h
            cases h
        intro x hx
        rcases List.mem_cons.mp hx with e | hx2
        · rw [e]
          exact hb
        · exact no_lf_of_findNewline_none rest hr x hx2

/-- A found terminator lies within the buffer. -/
theorem findNewline_bounds : ∀ (t : Bytes) (i l : Nat),
    findNewline t = some (i, l) → i + l ≤ t.length
  | [], i, l, h => by simp [findNewline] at h
  | b :: rest, i, l, h => by
    simp only [findNewline] at h
    by_cases hb : b = 10
    · rw [if_pos hb] at h
      have h2 : 0 = i ∧ 1 = l := by simpa using h
      simp [← h2.1, ← h2.2]
    · rw [if_neg hb] at h
      by_cases hc : b = 13 ∧ rest.head? = some 10
      · rw [if_pos hc] at h
        have h2 : 0 = i ∧ 2 = l := by simpa using h
        cases rest with
        | nil => simp at hc
        | cons r rs => simp [← h2.1, ← h2.2]
      · rw [if_neg hc] at h
        cases hfr : findNewline rest with
        | none =>
          rw [hfr] at h
          cases h
        | some v =>
          obtain ⟨j, l2⟩ := v
          rw [hfr] at h
          have h2 : j + 1 = i ∧ l2 = l := by simpa using h
          have hrec := findNewline_bounds rest j l2 hfr
          simp only [List.length_cons]
          omega

/-- A terminator found in a buffer survives appending more bytes. -/
theorem findNewline_append_left : ∀ (s t : Bytes) (i l : Nat),
    findNewline s = some (i, l) → findNewline (s ++ t) = some (i, l)
  | [], t, i, l, h => by simp [findNewline] at h
  | b :: rest, t, i, l, h => by
    simp only [findNewline] at h
    simp only [List.cons_append, findNewline, List.append_eq]
    by_cases hb : b = 10
    · rw [if_pos hb] at h ⊢
      exact h
    · rw [if_neg hb] at h ⊢
      by_cases hc : b = 13 ∧ rest.head? = some 10
      · have hc2 : b = 13 ∧ (rest ++ t).head? = some 10 := by
          obtain ⟨h1, h2⟩ := hc
          refine ⟨h1, ?_⟩
          cases rest with
          | nil => simp at h2
          | cons r rs => simpa using h2
        rw [if_pos hc] at h
        rw [if_pos hc2]
        exact h
      · rw [if_neg hc] at h
        have hc2 : ¬(b = 13 ∧ (rest ++ t).head? = some 10) := by
          intro hcc
          cases hrest : rest with
          | nil =>
            rw [hrest] at h
            simp [findNewline] at h
          | cons r rs =>
            rw [hrest] at hcc hc
            exact hc ⟨hcc.1, by simpa using hcc.2⟩
        rw [if_neg hc2]
        cases hfr : findNewline rest with
        | none =>
          rw [hfr] at h
          cases h
        | some v =>
          obtain ⟨j, l2⟩ := v
          rw [hfr] at h
          rw [findNewline_append_left rest t j l2 hfr]
          exact h

/-- Scanning past a clean prefix (no `\n`, no `\r` straddling into the tail)
shifts the found terminator by the prefix length. -/
theorem findNewline_append_shift : ∀ (pre t : Bytes),
    (∀ b ∈ pre, b ≠ 10) → ¬(pre.getLast? = some 13 ∧ t.head? = some 10) →
    findNewline (pre ++ t) = (findNewline t).map fun il => (il.1 + pre.length, il.2)
  | [], t, _, _ => by
    cases h : findNewline t <;> simp [h]
  | b :: rest, t, hno, hstr => by
    have hb : b ≠ 10 := hno b (List.mem_cons_self _ _)
    simp only [List.cons_append, findNewline, List.append_eq, if_neg hb]
    by_cases hb13 : b = 13
    · cases rest with
      | nil =>
        have ht : t.head? ≠ some 10 := fun h10 => hstr ⟨by simp [hb13], h10⟩
        rw [if_neg (fun hc : _ ∧ _ => ht (by simpa using hc.2))]
        simp only [List.nil_append]
        cases h : findNewline t <;> simp [h]
      | cons r rs =>
        have hr : r ≠ 10 := hno r (by simp)
        rw [if_neg (fun hc : _ ∧ _ => hr (by simpa using hc.2))]
        rw [show (r :: rs) ++ t = (r :: rs) ++ t from rfl]
        rw [findNewline_append_shift (r :: rs) t (fun x hx => hno x (List.mem_cons_of_mem _ hx))
          (fun hc => hstr ⟨by rw [List.getLast?_cons_cons]; exact hc.1, hc.2⟩)]
        cases h : findNewline t with
        | none => simp
        | some v =>
          obtain ⟨j, l2⟩ := v
          simp only [Option.map_some', Option.some.injEq, Prod.mk.injEq, List.length_cons]
          exact ⟨by omega, trivial⟩
    · rw [if_neg (fun hc : _ ∧ _ => hb13 hc.1)]
      rw [findNewline_append_shift rest t (fun x hx => hno x (List.mem_cons_of_mem _ hx)) ?hs2]
      case hs2 =>
        intro hc
        apply hstr
        refine ⟨?_, hc.2⟩
        cases hrest : rest with
        | nil =>
          rw [hrest] at hc
          simp at hc
        | cons r rs =>
          rw [List.getLast?_cons_cons]
          rw [← hrest]
          exact hc.1
      cases h : findNewline t with
      | none => simp
      | some v =>
        obtain ⟨j, l2⟩ := v
        simp only [Option.map_some', Option.some.injEq, Prod.mk.injEq, List.length_cons]
        exact ⟨by omega, trivial⟩

/-- Unfolding `readlineAux` with no pending fills. -/
theorem readlineAux_nil_eq (max : Nat) (acc buf : Bytes) :
    readlineAux max acc buf [] =
      match findNewline buf with
      | some il => Except.ok (some (acc ++ buf.take il.1), buf.drop (il.1 + il.2), [])
      | none =>
        if max ≤ (acc ++ buf).length then Except.error "Line exceeds maximum length"
        else if (acc ++ buf).length = 0 then Except.ok (none, [], [])
        else Except.ok (some (acc ++ buf), [], []) := rfl

/-- Unfolding `readlineAux` with a pending fill. -/
theorem readlineAux_cons_eq (max : Nat) (acc buf f : Bytes) (rest : List Bytes) :
    readlineAux max acc buf (f :: rest) =
      match findNewline buf with
      | some il => Except.ok (some (acc ++ buf.take il.1), buf.drop (il.1 + il.2), f :: rest)
      | none =>
        if max ≤ (acc ++ buf).length then Except.error "Line exceeds maximum length"
        else readlineAux max (acc ++ buf) f rest := rfl

/-- `readline` when the current buffer already contains a terminator: the
saved bytes plus the prefix are returned and the terminator is consumed. -/
theorem readlineAux_term_found (fills : List Bytes) (buf acc : Bytes)
    (max i len j l : Nat) (s : Bytes)
    (hs : s = acc ++ (buf ++ fills.flatten))
    (hacc : ∀ b ∈ acc, b ≠ 10)
    (hstr : ¬(acc.getLast? = some 13 ∧ (buf ++ fills.flatten).head? = some 10))
    (hbuf : findNewline buf = some (j, l))
    (hfind : findNewline s = some (i, len)) :
    readlineAux max acc buf fills = Except.ok (some (s.take i), buf.drop (j + l), fills)
    ∧ buf.drop (j + l) ++ fills.flatten = s.drop (i + len) := by
  have hb := findNewline_bounds buf j l hbuf
  have hext : findNewline (buf ++ fills.flatten) = some (j, l) :=
    findNewline_append_left buf _ j l hbuf
  have hshift := findNewline_append_shift acc (buf ++ fills.flatten) hacc hstr
  rw [hext] at hshift
  rw [hs] at hfind
  rw [hfind] at hshift
  have hil : i = j + acc.length ∧ len = l := by simpa using hshift
  obtain ⟨hi, hl⟩ := hil
  constructor
  · have hred : readlineAux max acc buf fills
        = Except.ok (some (acc ++ buf.take j), buf.drop (j + l), fills) := by
      cases fills with
      | nil => rw [readlineAux_nil_eq, hbuf]
      | cons f rest => rw [readlineAux_cons_eq, hbuf]
    rw [hred, hs, hi]
    rw [show j + acc.length = acc.length + j from by omega]
    rw [List.take_append]
    rw [List.take_append_of_le_length (by omega : j ≤ buf.length)]
  · rw [hs, hi, hl]
    rw [show j + acc.length + l = acc.length + (j + l) from by omega]
    rw [List.drop_append]
    exact (List.drop_append_of_le_length hb).symm

/-- When the stream has a terminator before the length limit and no `\r\n`
straddles a fill boundary, `readline` returns exactly the stream up to (and
excluding) the terminator, consuming through it. -/
theorem readlineAux_term (fills : List Bytes) :
    ∀ (buf acc : Bytes) (max i len : Nat) (s : Bytes),
    s = acc ++ (buf ++ fills.flatten) →
    (∀ b ∈ acc, b ≠ 10) →
    ¬(acc.getLast? = some 13 ∧ (buf ++ fills.flatten).head? = some 10) →
    NoStraddle buf fills →
    findNewline s = some (i, len) →
    i < max →
    ∃ buf2 fills2, readlineAux max acc buf fills
      = Except.ok (some (s.take i), buf2, fills2)
      ∧ buf2 ++ fills2.flatten = s.drop (i + len) := by
  induction fills with
  | nil =>
    intro buf acc max i len s hs hacc hstr _ hfind himax
    cases hbuf : findNewline buf with
    | some jl =>
      obtain ⟨j, l⟩ := jl
      obtain ⟨h1, h2⟩ := readlineAux_term_found [] buf acc max i len j l s hs hacc hstr hbuf hfind
      exact ⟨buf.drop (j + l), [], h1, h2⟩
    | none =>
      exfalso
      have hnolf : ∀ b ∈ buf, b ≠ 10 := no_lf_of_findNewline_none buf hbuf
      have hnone : findNewline s = none := by
        rw [hs]
        simp only [List.flatten_nil, List.append_nil]
        refine findNewline_none_of_no_lf _ ?_
        intro b hb
        rcases List.mem_append.mp hb with h1 | h2
        · exact hacc b h1
        · exact hnolf b h2
      rw [hfind] at hnone
      cases hnone
  | cons f rest ih =>
    intro buf acc max i len s hs hacc hstr hns hfind himax
    cases hbuf : findNewline buf with
    | some jl =>
      obtain ⟨j, l⟩ := jl
      obtain ⟨h1, h2⟩ :=
        readlineAux_term_found (f :: rest) buf acc max i len j l s hs hacc hstr hbuf hfind
      exact ⟨buf.drop (j + l), f :: rest, h1, h2⟩
    | none =>
      have hnolf := no_lf_of_findNewline_none buf hbuf
      have hacc2 : ∀ b ∈ acc ++ buf, b ≠ 10 := by
        intro b hb
        rcases List.mem_append.mp hb with h1 | h2
        · exact hacc b h1
        · exact hnolf b h2
      have hstr2 : ¬((acc ++ buf).getLast? = some 13 ∧ (f ++ rest.flatten).head? = some 10) := by
        intro hc
        by_cases hbe : buf = []
        · subst hbe
          exact hstr ⟨by simpa using hc.1, by simpa using hc.2⟩
        · refine hns.1 ⟨?_, by simpa using hc.2⟩
          rw [← List.getLast?_append_of_ne_nil acc hbe]
          exact hc.1
      have hs2 : s = (acc ++ buf) ++ (f ++ rest.flatten) := by
        rw [hs]
        simp
      have hshift := findNewline_append_shift (acc ++ buf) (f ++ rest.flatten) hacc2 hstr2
      rw [← hs2] at hshift
      rw [hfind] at hshift
      cases hflat : findNewline (f ++ rest.flatten) with
      | none =>
        rw [hflat] at hshift
        cases hshift
      | some v =>
        obtain ⟨i0, l0⟩ := v
        rw [hflat] at hshift
        have hil : i = i0 + (acc ++ buf).length ∧ len = l0 := by simpa using hshift
        have hnothrow : ¬ max ≤ (acc ++ buf).length := by
          have := hil.1
          omega
        have hred : readlineAux max acc buf (f :: rest) = readlineAux max (acc ++ buf) f rest := by
          rw [readlineAux_cons_eq, hbuf]
          have hnothrow2 : ¬ max ≤ acc.length + buf.length := by simpa using hnothrow
          simp [hnothrow2]
        rw [hred]
        exact ih f (acc ++ buf) max i len s hs2 hacc2 hstr2 hns.2 hfind himax

/-- `readline` at EOF with no terminator and fewer than `max` bytes: the
pending bytes come back as the final line (`null` when none were pending). -/
theorem readlineAux_eof (fills : List Bytes) :
    ∀ (buf acc : Bytes) (max : Nat) (s : Bytes),
    s = acc ++ (buf ++ fills.flatten) →
    (∀ b ∈ s, b ≠ 10) →
    s.length < max →
    readlineAux max acc buf fills
      = Except.ok (if s.length = 0 then none else some s, [], []) := by
  induction fills with
  | nil =>
    intro buf acc max s hs hno hlen
    have hbuf : findNewline buf = none :=
      findNewline_none_of_no_lf buf (fun b hb => hno b (by rw [hs]; simp [hb]))
    have hse : acc ++ buf = s := by
      rw [hs]
      simp
    have hnothrow : ¬ max ≤ (acc ++ buf).length := by
      rw [hse]
      omega
    rw [readlineAux_nil_eq, hbuf]
    show (if max ≤ (acc ++ buf).length then Except.error "Line exceeds maximum length"
      else if (acc ++ buf).length = 0 then (Except.ok (none, [], []) :
          Except String (Option Bytes × Bytes × List Bytes))
        else Except.ok (some (acc ++ buf), [], [])) = _
    rw [if_neg hnothrow, hse]
    by_cases hz : s.length = 0
    · simp [hz, List.length_eq_zero.mp hz]
    · have hz2 : ¬ s = [] := fun he => hz (by simp [he])
      simp [hz, hz2]
  | cons f rest ih =>
    intro buf acc max s hs hno hlen
    have hbuf : findNewline buf = none :=
      findNewline_none_of_no_lf buf (fun b hb => hno b (by rw [hs]; simp [hb]))
    have hs2 : s = (acc ++ buf) ++ (f ++ rest.flatten) := by
      rw [hs]
      simp
    have hnothrow : ¬ max ≤ (acc ++ buf).length := by
      have hle : (acc ++ buf).length ≤ s.length := by
        rw [hs2]
        simp
      omega
    have hred : readlineAux max acc buf (f :: rest) = readlineAux max (acc ++ buf) f rest := by
      rw [readlineAux_cons_eq, hbuf]
      have hnothrow2 : ¬ max ≤ acc.length + buf.length := by simpa using hnothrow
      simp [hnothrow2]
    rw [hred]
    exact ih f (acc ++ buf) max s hs2 hno hlen

/-- `readline` throws once the accumulated line reaches `max` with no
terminator in the stream. -/
theorem readlineAux_eof_throw (fills : List Bytes) :
    ∀ (buf acc : Bytes) (max : Nat) (s : Bytes),
    s = acc ++ (buf ++ fills.flatten) →
    (∀ b ∈ s, b ≠ 10) →
    max ≤ s.length →
    readlineAux max acc buf fills = Except.error "Line exceeds maximum length" := by
  induction fills with
  | nil =>
    intro buf acc max s hs hno hlen
    have hbuf : findNewline buf = none :=
      findNewline_none_of_no_lf buf (fun b hb => hno b (by rw [hs]; simp [hb]))
    have hse : acc ++ buf = s := by
      rw [hs]
      simp
    have hthrow : max ≤ (acc ++ buf).length := by
      rw [hse]
      exact hlen
    rw [readlineAux_nil_eq, hbuf]
    show (if max ≤ (acc ++ buf).length then Except.error "Line exceeds maximum length"
      else if (acc ++ buf).length = 0 then (Except.ok (none, [], []) :
          Except String (Option Bytes × Bytes × List Bytes))
        else Except.ok (some (acc ++ buf), [], [])) = _
    rw [if_pos hthrow]
  | cons f rest ih =>
    intro buf acc max s hs hno hlen
    have hbuf : findNewline buf = none :=
      findNewline_none_of_no_lf buf (fun b hb => hno b (by rw [hs]; simp [hb]))
    by_cases hthrow : max ≤ (acc ++ buf).length
    · rw [readlineAux_cons_eq, hbuf]
      have hthrow2 : max ≤ acc.length + buf.length := by simpa using hthrow
      simp [hthrow2]
    · have hs2 : s = (acc ++ buf) ++ (f ++ rest.flatten) := by
        rw [hs]
        simp
      have hred : readlineAux max acc buf (f :: rest) = readlineAux max (acc ++ buf) f rest := by
        rw [readlineAux_cons_eq, hbuf]
        have hthrow2 : ¬ max ≤ acc.length + buf.length := by simpa using hthrow
        simp [hthrow2]
      rw [hred]
      exact ih f (acc ++ buf) max s hs2 hno hlen

/-- Claim C5 (counterexample): when the `\r` of a `\r\n` terminator is the
last byte of one fill and the `\n` arrives in the next, `readline` returns
the `\r` inside the line: for the stream `"ab\r\ncd"` delivered as fills
`[97 98 13]` then `[10 99]`, the code returns `[97 98 13]` while the claim's
terminator-exclusion requires `[97 98]` (the first terminator of the
flattened stream is the `\r\n` at index 2). -/
theorem readline_crlf_counterexample :
    readline [] [[97, 98, 13], [10, 99]] 65536
      = Except.ok (some [97, 98, 13], [99], [])
  ∧ findNewline [97, 98, 13, 10, 99] = some (2, 2)
  ∧ ([97, 98, 13] : Bytes) ≠ ([97, 98, 13, 10, 99] : Bytes).take 2 := by
  exact ⟨rfl, by decide, by decide⟩

/-- Claim C5 (amended): over any sequence of buffer fills in which no `\r\n`
terminator straddles a fill boundary, `Pipe.readline` returns the text
strictly up to and excluding the next `\n` or `\r\n` terminator, consuming
through it (when a `\r\n` does straddle a boundary the `\r` is kept in the
line, as the counterexample shows); on EOF with unterminated bytes pending
it returns those bytes as the final line, and `null` only if no bytes were
pending; and it throws `Line exceeds maximum length` when the stream has no
terminator and at least `maxLength` bytes accumulate. -/
theorem readline_spec (buf : Bytes) (fills : List Bytes) (max i len : Nat) :
    (NoStraddle buf fills →
      findNewline (buf ++ fills.flatten) = some (i, len) → i < max →
      ∃ buf2 fills2, readline buf fills max
        = Except.ok (some ((buf ++ fills.flatten).take i), buf2, fills2)
        ∧ buf2 ++ fills2.flatten = (buf ++ fills.flatten).drop (i + len))
  ∧ ((∀ b ∈ buf ++ fills.flatten, b ≠ 10) → (buf ++ fills.flatten).length < max →
      buf ++ fills.flatten ≠ [] →
      readline buf fills max = Except.ok (some (buf ++ fills.flatten), [], []))
  ∧ ((∀ b ∈ buf ++ fills.flatten, b ≠ 10) → buf ++ fills.flatten = [] → 0 < max →
      readline buf fills max = Except.ok (none, [], []))
  ∧ ((∀ b ∈ buf ++ fills.flatten, b ≠ 10) → max ≤ (buf ++ fills.flatten).length →
      readline buf fills max = Except.error "Line exceeds maximum length") := by
  refine ⟨?_, ?_, ?_, ?_⟩
  · intro hns hfind himax
    exact readlineAux_term fills buf [] max i len (buf ++ fills.flatten) (by simp) (by simp)
      (by simp) hns hfind himax
  · intro hno hlen hne
    have h := readlineAux_eof fills buf [] max (buf ++ fills.flatten) (by simp) hno hlen
    have hz : ¬ (buf ++ fills.flatten).length = 0 := fun h0 => hne (List.length_eq_zero.mp h0)
    rw [if_neg hz] at h
    exact h
  · intro hno hz hmax
    have h := readlineAux_eof fills buf [] max (buf ++ fills.flatten) (by simp) hno
      (by rw [hz]; simpa using hmax)
    rw [if_pos (by rw [hz]; rfl)] at h
    exact h
  · intro hno hlen
    exact readlineAux_eof_throw fills buf [] max (buf ++ fills.flatten) (by simp) hno hlen

/-- Claim C5 witness: the amended statement at concrete fills. -/
theorem readline_spec_witness :
    readline [97, 98] [[99]] 65536 = Except.ok (some ([97, 98] ++ ([[99]] : List Bytes).flatten), [], [])
  ∧ readline [97] [] 1 = Except.error "Line exceeds maximum length" := by
  constructor
  · exact (readline_spec [97, 98] [[99]] 65536 0 0).2.1 (by decide) (by decide) (by decide)
  · exact (readline_spec [97] [] 1 0 0).2.2.2 (by decide) (by decide)

/-- Decoding a hex digit produced by the encoder recovers its value. -/
theorem hexDigitVal_hexDigitByte (d : Nat) (hd : d < 16) :
    hexDigitVal (hexDigitByte d) = some d := by
  unfold hexDigitVal hexDigitByte
  by_cases h : d < 10
  · rw [if_pos h, if_pos (by omega : 48 ≤ 48 + d ∧ 48 + d ≤ 57)]
    congr 1
    omega
  · rw [if_neg h, if_neg (by omega : ¬(48 ≤ 87 + d ∧ 87 + d ≤ 57)),
      if_pos (by omega : 97 ≤ 87 + d ∧ 87 + d ≤ 102)]
    congr 1
    omega

theorem hexDigitByte_ne (d : Nat) : hexDigitByte d ≠ 10 ∧ hexDigitByte d ≠ 13 := by
  unfold hexDigitByte
  by_cases h : d < 10 <;> simp [h] <;> omega

/-- Every byte of a hex size rendering is a hex digit and not a line
break. -/
theorem hexBytes_mem (n : Nat) : ∀ b ∈ hexBytes n,
    (hexDigitVal b).isSome = true ∧ b ≠ 10 ∧ b ≠ 13 := by
  intro b hb
  unfold hexBytes at hb
  by_cases h : n = 0
  · rw [if_pos h] at hb
    simp only [List.mem_singleton] at hb
    subst hb
    exact ⟨by decide, by decide, by decide⟩
  · rw [if_neg h] at hb
    simp only [List.mem_map, List.mem_reverse] at hb
    obtain ⟨d, hd, he⟩ := hb
    have hlt : d < 16 := Nat.digits_lt_base' hd
    rw [← he]
    exact ⟨by rw [hexDigitVal_hexDigitByte d hlt]; rfl,
      (hexDigitByte_ne d).1, (hexDigitByte_ne d).2⟩

theorem hexBytes_ne (n : Nat) : hexBytes n ≠ [] := by
  unfold hexBytes
  by_cases h : n = 0
  · simp [h]
  · simp [h, Nat.digits_ne_nil_iff_ne_zero]

theorem hexDigitsHead_all : ∀ (l : Bytes), (∀ b ∈ l, (hexDigitVal b).isSome = true) →
    hexDigitsHead l = l
  | [], _ => rfl
  | b :: rest, h => by
    unfold hexDigitsHead
    rw [if_pos (h b (List.mem_cons_self _ _))]
    rw [hexDigitsHead_all rest (fun x hx => h x (List.mem_cons_of_mem _ hx))]

theorem foldr_hexval (l : List Nat) (hl : ∀ d ∈ l, d < 16) :
    l.foldr (fun x a => 16 * a + (hexDigitVal (hexDigitByte x)).getD 0) 0
      = Nat.ofDigits 16 l := by
  induction l with
  | nil => simp [Nat.ofDigits]
  | cons d L ih =>
    simp only [List.foldr_cons, ih (fun x hx => hl x (List.mem_cons_of_mem _ hx))]
    rw [hexDigitVal_hexDigitByte d (hl d (List.mem_cons_self _ _))]
    simp [Nat.ofDigits_cons]
    ring

/-- Parsing the hex size line written by `writeChunk` recovers the size. -/
theorem hexLineSize_hexBytes (n : Nat) : hexLineSize (hexBytes n) = some n := by
  unfold hexLineSize
  rw [hexDigitsHead_all (hexBytes n) (fun b hb => (hexBytes_mem n b hb).1)]
  rw [if_neg (hexBytes_ne n)]
  congr 1
  unfold hexBytes
  by_cases h : n = 0
  · simp [h, hexDigitVal]
  · rw [if_neg h]
    rw [List.foldl_map, List.foldl_reverse]
    rw [foldr_hexval (Nat.digits 16 n) (fun d hd => Nat.digits_lt_base' hd)]
    exact Nat.ofDigits_digits 16 n

/-- Reading one line from a stream beginning with terminator-free bytes and
a `\n`. -/
theorem readlineS_line (line rest : Bytes) (max : Nat)
    (hno : ∀ b ∈ line, b ≠ 10 ∧ b ≠ 13) :
    readlineS (line ++ 10 :: rest) max = Except.ok (some line, rest) := by
  have hstr : ¬(line.getLast? = some 13 ∧ (10 :: rest).head? = some 10) := by
    intro hc
    exact (hno 13 (List.mem_of_mem_getLast? hc.1)).2 rfl
  have hfind : findNewline (line ++ 10 :: rest) = some (line.length, 1) := by
    rw [findNewline_append_shift line (10 :: rest) (fun b hb => (hno b hb).1) hstr]
    simp [findNewline]
  unfold readlineS readline
  rw [readlineAux_nil_eq, hfind]
  show (Except.ok (some ([] ++ (line ++ 10 :: rest).take line.length),
      (line ++ 10 :: rest).drop (line.length + 1), ([] : List Bytes))).map
        (fun r => (r.1, r.2.1)) = _
  rw [List.take_left, List.drop_append]
  rfl

/-- Reading one chunk from a stream beginning with a `writeChunk` frame. -/
theorem readChunkS_data (c rest : Bytes) (hc : c ≠ []) :
    readChunkS (writeChunkBytes c ++ rest) = Except.ok (some c, rest) := by
  have harr : writeChunkBytes c ++ rest
      = hexBytes c.length ++ 10 :: (c ++ 10 :: rest) := by
    unfold writeChunkBytes
    simp
  have hlen0 : c.length ≠ 0 := fun h => hc (List.length_eq_zero.mp h)
  have hline := readlineS_line (hexBytes c.length) (c ++ 10 :: rest) 1024
    (fun b hb => ⟨(hexBytes_mem c.length b hb).2.1, (hexBytes_mem c.length b hb).2.2⟩)
  have hexact : readExactS (c ++ 10 :: rest) c.length = (some c, 10 :: rest) := by
    unfold readExactS
    rw [if_neg (by simp)]
    rw [List.take_left, List.drop_left]
  have htrail : readlineS (10 :: rest) 2 = Except.ok (some [], rest) := by
    simpa using readlineS_line [] rest 2 (by simp)
  rw [harr]
  simp [readChunkS, hline, hexLineSize_hexBytes, hexact, htrail, hexBytes_ne, hlen0]

theorem readChunksS_succ (fuel : Nat) (s : Bytes) :
    readChunksS (fuel + 1) s =
      match readChunkS s with
      | Except.error e => Except.error e
      | Except.ok (none, s1) => Except.ok ([], s1)
      | Except.ok (some c, s1) =>
        match readChunksS fuel s1 with
        | Except.error e => Except.error e
        | Except.ok (cs, s2) => Except.ok (c :: cs, s2) := rfl

/-- Decoding a `writeChunk`* + zero-size-frame stream recovers the chunk list
and leaves the bytes after the zero line untouched. -/
theorem readChunksS_encode : ∀ (chunks : List Bytes) (t : Bytes),
    (∀ c ∈ chunks, c ≠ []) →
    readChunksS (chunks.length + 1) ((chunks.map writeChunkBytes).flatten ++ ([48, 10] ++ t))
      = Except.ok (chunks, t)
  | [], t, _ => by
    have hchunk : readChunkS ((List.map writeChunkBytes []).flatten ++ ([48, 10] ++ t))
        = Except.ok (none, t) := by
      have h48 : readlineS (48 :: 10 :: t) 1024 = Except.ok (some [48], t) := by
        simpa using readlineS_line [48] t 1024 (by decide)
      have harr : (List.map writeChunkBytes []).flatten ++ ([48, 10] ++ t)
          = [48] ++ 10 :: t := by simp
      rw [harr]
      simp [readChunkS, h48, show hexLineSize [48] = some 0 from rfl]
    rw [readChunksS_succ, hchunk]
  | c :: cs, t, hne => by
    have hstream : (List.map writeChunkBytes (c :: cs)).flatten ++ ([48, 10] ++ t)
        = writeChunkBytes c ++ ((List.map writeChunkBytes cs).flatten ++ ([48, 10] ++ t)) := by
      simp
    rw [hstream, show (c :: cs).length + 1 = (cs.length + 1) + 1 from rfl, readChunksS_succ]
    simp only [readChunkS_data c _ (hne c (List.mem_cons_self _ _)),
      readChunksS_encode cs t (fun x hx => hne x (List.mem_cons_of_mem _ hx))]

theorem dropWhile_eq_self_of_head (l : Bytes)
    (h : ∀ b, l.head? = some b → isWsByte b = false) :
    l.dropWhile isWsByte = l := by
  cases l with
  | nil => rfl
  | cons a t => simp [List.dropWhile_cons, h a rfl]

/-- `trim` is the identity on strings with no whitespace at either end. -/
theorem trimBytes_eq_self (l : Bytes)
    (hh : ∀ b, l.head? = some b → isWsByte b = false)
    (hl : ∀ b, l.getLast? = some b → isWsByte b = false) :
    trimBytes l = l := by
  unfold trimBytes
  rw [dropWhile_eq_self_of_head l hh]
  rw [dropWhile_eq_self_of_head l.reverse
    (fun b hb => hl b (by rwa [List.head?_reverse] at hb))]
  simp

/-- `trim` strips exactly the separator space written by `endChunked`. -/
theorem trimBytes_space (v : Bytes)
    (hh : ∀ b, v.head? = some b → isWsByte b = false)
    (hl : ∀ b, v.getLast? = some b → isWsByte b = false) :
    trimBytes (32 :: v) = v := by
  unfold trimBytes
  rw [show List.dropWhile isWsByte (32 :: v) = List.dropWhile isWsByte v from by
    simp [List.dropWhile_cons, isWsByte]]
  rw [dropWhile_eq_self_of_head v hh]
  rw [dropWhile_eq_self_of_head v.reverse
    (fun b hb => hl b (by rwa [List.head?_reverse] at hb))]
  simp

theorem findIdx_colon : ∀ (k w : Bytes) (i : Nat), (∀ b ∈ k, b ≠ 58) →
    List.findIdx? (fun b => b = 58) (k ++ 58 :: w) i = some (i + k.length)
  | [], w, i, _ => by
    rw [List.nil_append, List.findIdx?_cons]
    simp
  | a :: t, w, i, h => by
    rw [List.cons_append, List.findIdx?_cons,
      if_neg (by simp [h a (List.mem_cons_self _ _)]),
      findIdx_colon t w (i + 1) (fun b hb => h b (List.mem_cons_of_mem _ hb))]
    congr 1
    simp
    omega

/-- `line.indexOf(':')` on a written trailer line finds the written colon. -/
theorem colonIndex_append (k w : Bytes) (hk : ∀ b ∈ k, b ≠ 58) :
    colonIndex (k ++ 58 :: w) = some k.length := by
  unfold colonIndex
  rw [findIdx_colon k w 0 hk]
  simp

theorem readTrailerS_succ (fuel : Nat) (hs : HeadersB) (s : Bytes) :
    readTrailerS (fuel + 1) hs s =
      match readlineS s 8192 with
      | Except.error e => Except.error e
      | Except.ok (line?, s1) =>
        match line? with
        | none => Except.ok (hs, s1)
        | some line =>
          if line = [] then Except.ok (hs, s1)
          else
            match colonIndex line with
            | none => readTrailerS fuel hs s1
            | some ci =>
              readTrailerS fuel
                (headersPush hs (lowerBytes (trimBytes (line.take ci)))
                  (trimBytes (line.drop (ci + 1)))) s1 := rfl

/-- Parsing the trailer section written by `endChunked` accumulates exactly
the written pairs (keys lowercased) and consumes the whole stream. -/
theorem readTrailerS_encode : ∀ (trailers : List (Bytes × Bytes)) (hs : HeadersB),
    (∀ kv ∈ trailers, KeyOk kv.1 ∧ ValueOk kv.2) →
    readTrailerS (trailers.length + 1) hs
        ((trailers.map fun kv => kv.1 ++ [58, 32] ++ kv.2 ++ [10]).flatten ++ [10])
      = Except.ok (trailers.foldl (fun h kv => headersPush h (lowerBytes kv.1) kv.2) hs, [])
  | [], hs, _ => by
    have h0 : readlineS [10] 8192 = Except.ok (some [], []) := by
      simpa using readlineS_line [] [] 8192 (by simp)
    have harr : ((List.map (fun kv => kv.1 ++ [58, 32] ++ kv.2 ++ [10])
        ([] : List (Bytes × Bytes))).flatten ++ [10] : Bytes) = [10] := by simp
    rw [readTrailerS_succ, harr, h0]
    rfl
  | (k0, v0) :: rest, hs, hwf => by
    have hk := (hwf (k0, v0) (List.mem_cons_self _ _)).1
    have hv := (hwf (k0, v0) (List.mem_cons_self _ _)).2
    have hknews : ∀ b ∈ k0, isWsByte b = false := by
      intro b hb
      have := (hk.2 b hb).1
      simp only [isWsByte]
      simp
      omega
    have hline : ∀ b ∈ k0 ++ 58 :: 32 :: v0, b ≠ 10 ∧ b ≠ 13 := by
      intro b hb
      rcases List.mem_append.mp hb with h1 | h2
      · have := hk.2 b h1
        exact ⟨by omega, by omega⟩
      · rcases List.mem_cons.mp h2 with he | h3
        · subst he; exact ⟨by decide, by decide⟩
        · rcases List.mem_cons.mp h3 with he2 | h4
          · subst he2; exact ⟨by decide, by decide⟩
          · exact hv.1 b h4
    have hstream : ((List.map (fun kv => kv.1 ++ [58, 32] ++ kv.2 ++ [10])
          ((k0, v0) :: rest)).flatten ++ [10] : Bytes)
        = (k0 ++ 58 :: 32 :: v0) ++ 10 ::
            ((List.map (fun kv => kv.1 ++ [58, 32] ++ kv.2 ++ [10]) rest).flatten ++ [10]) := by
      simp
    have hcolon : colonIndex (k0 ++ 58 :: 32 :: v0) = some k0.length :=
      colonIndex_append k0 (32 :: v0) (fun b hb => (hk.2 b hb).2.2)
    have hkey : lowerBytes (trimBytes ((k0 ++ 58 :: 32 :: v0).take k0.length))
        = lowerBytes k0 := by
      rw [List.take_left,
        trimBytes_eq_self k0 (fun b hb => hknews b (List.mem_of_mem_head? hb))
          (fun b hb => hknews b (List.mem_of_mem_getLast? hb))]
    have hval : trimBytes ((k0 ++ 58 :: 32 :: v0).drop (k0.length + 1)) = v0 := by
      rw [List.drop_append]
      exact trimBytes_space v0 hv.2.1 hv.2.2
    have hred : readTrailerS (rest.length + 1 + 1) hs ((k0 ++ 58 :: 32 :: v0) ++ 10 ::
          ((List.map (fun kv => kv.1 ++ [58, 32] ++ kv.2 ++ [10]) rest).flatten ++ [10]))
        = readTrailerS (rest.length + 1) (headersPush hs (lowerBytes k0) v0)
            ((List.map (fun kv => kv.1 ++ [58, 32] ++ kv.2 ++ [10]) rest).flatten ++ [10]) := by
      rw [readTrailerS_succ, readlineS_line _ _ 8192 hline]
      simp [hcolon, hkey, hval,
        trimBytes_eq_self k0 (fun b hb => hknews b (List.mem_of_mem_head? hb))
          (fun b hb => hknews b (List.mem_of_mem_getLast? hb)),
        trimBytes_space v0 hv.2.1 hv.2.2]
    rw [show ((k0, v0) :: rest).length + 1 = rest.length + 1 + 1 from rfl, hstream, hred]
    rw [readTrailerS_encode rest (headersPush hs (lowerBytes k0) v0)
      (fun kv hkv => hwf kv (List.mem_cons_of_mem _ hkv))]
    rfl

theorem headersGet_push_self : ∀ (hs : HeadersB) (key v : Bytes), headersGet hs key = none →
    headersGet (headersPush hs key v) key = some [v]
  | [], key, v, _ => by simp [headersPush, headersGet]
  | (k, vs) :: rest, key, v, h => by
    unfold headersGet at h
    by_cases hk : k = key
    · rw [if_pos hk] at h
      simp at h
    · rw [if_neg hk] at h
      simp [headersPush, headersGet, hk, headersGet_push_self rest key v h]

theorem headersGet_push_ne : ∀ (hs : HeadersB) (key v kk : Bytes), key ≠ kk →
    headersGet (headersPush hs key v) kk = headersGet hs kk
  | [], key, v, kk, h => by simp [headersPush, headersGet, h]
  | (k, vs) :: rest, key, v, kk, h => by
    by_cases hk : k = key
    · simp [headersPush, headersGet, hk, h]
    · simp [headersPush, headersGet, hk, headersGet_push_ne rest key v kk h]

/-- Pushing pairs whose keys all differ from `kk` does not change the entry
at `kk`. -/
theorem foldl_push_preserve : ∀ (trailers : List (Bytes × Bytes)) (hs : HeadersB) (kk : Bytes),
    (∀ kv ∈ trailers, lowerBytes kv.1 ≠ kk) →
    headersGet (trailers.foldl (fun h kv => headersPush h (lowerBytes kv.1) kv.2) hs) kk
      = headersGet hs kk
  | [], _, _, _ => rfl
  | kv :: rest, hs, kk, h => by
    rw [List.foldl_cons,
      foldl_push_preserve rest _ kk (fun x hx => h x (List.mem_cons_of_mem _ hx)),
      headersGet_push_ne hs (lowerBytes kv.1) kv.2 kk (h kv (List.mem_cons_self _ _))]

/-- Every pair accumulated from a keywise-distinct trailer list is
retrievable through `getHeader`. -/
theorem getHeaderB_foldl : ∀ (trailers : List (Bytes × Bytes)) (hs : HeadersB) (k v : Bytes),
    (trailers.map fun kv => lowerBytes kv.1).Nodup →
    (∀ kv ∈ trailers, headersGet hs (lowerBytes kv.1) = none) →
    (k, v) ∈ trailers →
    getHeaderB (trailers.foldl (fun h kv => headersPush h (lowerBytes kv.1) kv.2) hs) k
      = some v
  | [], _, _, _, _, _, hm => absurd hm (List.not_mem_nil _)
  | (k0, v0) :: rest, hs, k, v, hnd, hdis, hm => by
    simp only [List.map_cons, List.nodup_cons] at hnd
    rcases List.mem_cons.mp hm with he | hm2
    · injection he with hk hv2
      subst hk
      subst hv2
      rw [List.foldl_cons]
      unfold getHeaderB
      rw [foldl_push_preserve rest _ (lowerBytes k)
        (fun x hx hx2 => hnd.1 (by rw [← hx2]; exact List.mem_map_of_mem _ hx))]
      rw [headersGet_push_self hs (lowerBytes k) v (hdis (k, v) (List.mem_cons_self _ _))]
    · rw [List.foldl_cons]
      refine getHeaderB_foldl rest _ k v hnd.2 ?_ hm2
      intro kv hkv
      rw [headersGet_push_ne hs (lowerBytes k0) v0 (lowerBytes kv.1)
        (fun he2 => hnd.1 (by rw [he2]; exact List.mem_map_of_mem _ hkv))]
      exact hdis kv (List.mem_cons_of_mem _ hkv)

/-- Claim C4: chunked encoding round-trips.  For every finite sequence of
non-empty byte chunks and well-formed trailer pairs (keys nonempty printable
tokens without a colon, pairwise distinct after lowercasing; values free of
line breaks and of edge whitespace), decoding the bytes written by
`writeChunk`* + `endChunked(trailers)` with the `readChunk` loop yields
exactly the original chunk list (hence the same concatenated byte sequence),
`readTrailer` then parses the remaining bytes into the accumulated header
map consuming the whole stream, and every written trailer pair is
retrievable from the parsed headers via `getHeader`. -/
theorem chunked_roundtrip (chunks : List Bytes) (trailers : List (Bytes × Bytes))
    (hne : ∀ c ∈ chunks, c ≠ [])
    (hwf : ∀ kv ∈ trailers, KeyOk kv.1 ∧ ValueOk kv.2)
    (hnd : (trailers.map fun kv => lowerBytes kv.1).Nodup) :
    readChunksS (chunks.length + 1) (encodeChunked chunks trailers)
        = Except.ok (chunks,
            (trailers.map fun kv => kv.1 ++ [58, 32] ++ kv.2 ++ [10]).flatten ++ [10]) ∧
    readTrailerS (trailers.length + 1) []
        ((trailers.map fun kv => kv.1 ++ [58, 32] ++ kv.2 ++ [10]).flatten ++ [10])
      = Except.ok (trailers.foldl (fun h kv => headersPush h (lowerBytes kv.1) kv.2) [], []) ∧
    ∀ k v : Bytes, (k, v) ∈ trailers →
      getHeaderB (trailers.foldl (fun h kv => headersPush h (lowerBytes kv.1) kv.2) []) k
        = some v := by
  refine ⟨?_, readTrailerS_encode trailers [] hwf, ?_⟩
  · have hstream : encodeChunked chunks trailers
        = (chunks.map writeChunkBytes).flatten
          ++ ([48, 10] ++ ((trailers.map fun kv => kv.1 ++ [58, 32] ++ kv.2 ++ [10]).flatten
            ++ [10])) := by
      unfold encodeChunked endChunkedBytes
      simp
    rw [hstream]
    exact readChunksS_encode chunks _ hne
  · intro k v hm
    exact getHeaderB_foldl trailers [] k v hnd (fun kv _ => rfl) hm

theorem chunked_roundtrip_witness :
    (∀ c ∈ ([[1], [2, 3]] : List Bytes), c ≠ []) ∧
    readChunksS (([[1], [2, 3]] : List Bytes).length + 1)
        (encodeChunked [[1], [2, 3]] [([107], [118])])
      = Except.ok (([[1], [2, 3]] : List Bytes),
          (([(([107] : Bytes), ([118] : Bytes))]).map
            fun kv => kv.1 ++ [58, 32] ++ kv.2 ++ [10]).flatten ++ [10]) ∧
    getHeaderB (([(([107] : Bytes), ([118] : Bytes))]).foldl
        (fun h kv => headersPush h (lowerBytes kv.1) kv.2) []) [107] = some [118] := by
  have hwf : ∀ kv ∈ ([(([107] : Bytes), ([118] : Bytes))] : List (Bytes × Bytes)),
      KeyOk kv.1 ∧ ValueOk kv.2 := by
    intro kv hkv
    simp only [List.mem_singleton] at hkv
    subst hkv
    refine ⟨⟨by decide, by decide⟩, by decide, ?_, ?_⟩
    · intro b hb
      simp at hb
      subst hb
      decide
    · intro b hb
      simp at hb
      subst hb
      decide
  have h := chunked_roundtrip [[1], [2, 3]] [([107], [118])] (by decide) hwf (by decide)
  exact ⟨by decide, h.1, h.2.2 [107] [118] (by decide)⟩

end Naci
